import Mathlib

/-!
Verification of the ingredient-extraction pipeline in `src/script.py`.

The script recovers text from a PDF (native decode, falling back to OCR when
the native text is shorter than 40 characters) and then applies two heuristic
extractors: an inline "Ingredients: ..." extractor and a tabular extractor.
We embed the pure text-processing core over `List Char` (Python `str`), with
the external PDF/OCR services modelled as black-box page-text parameters.

Python's `re` patterns used by the script are embedded by a small token-list
matcher (`Tok` / `matchEnds`) implementing the backtracking priority order of
Python's engine (greedy quantifiers try longest first, `?` tries presence
first, `re.search` takes the leftmost matching position).
-/

namespace Script

/-- Python `\s` on the ASCII range (the script's inputs): space, tab,
newline, carriage return, vertical tab, form feed. -/
def isPySpace (c : Char) : Bool :=
  c = ' ' || c = '\t' || c = '\n' || c = '\x0d' || c = '\x0b' || c = '\x0c'

/-- Python `\d` (ASCII digits). -/
def isPyDigit (c : Char) : Bool := '0' ≤ c && c ≤ '9'

/-- Python `\w` for the characters occurring in the script's patterns and
texts: ASCII alphanumerics, underscore, and the accented letters of the
Spanish/French markers. -/
def isPyWord (c : Char) : Bool :=
  c.isAlphanum || c = '_' ||
    c ∈ ['á', 'é', 'í', 'ó', 'ú', 'ñ', 'è', 'ç', 'Á', 'É', 'Í', 'Ó', 'Ú', 'Ñ']

/-- Uppercase-to-lowercase folding table for `re.IGNORECASE`: ASCII letters
plus the accented uppercase letters appearing in the script's patterns. -/
def upperPairs : List (Char × Char) :=
  [('A', 'a'), ('B', 'b'), ('C', 'c'), ('D', 'd'), ('E', 'e'), ('F', 'f'),
   ('G', 'g'), ('H', 'h'), ('I', 'i'), ('J', 'j'), ('K', 'k'), ('L', 'l'),
   ('M', 'm'), ('N', 'n'), ('O', 'o'), ('P', 'p'), ('Q', 'q'), ('R', 'r'),
   ('S', 's'), ('T', 't'), ('U', 'u'), ('V', 'v'), ('W', 'w'), ('X', 'x'),
   ('Y', 'y'), ('Z', 'z'), ('Ó', 'ó'), ('É', 'é'), ('Á', 'á')]

/-- Case folding used to model `re.IGNORECASE` matching. -/
def pyLower (c : Char) : Char :=
  match upperPairs.lookup c with
  | some l => l
  | none => c

/-- The character set stripped by `str.strip(" \t\n\r;,.")` in
`clean_ingredients_string`. -/
def stripSet : List Char := [' ', '\t', '\n', '\x0d', ';', ',', '.']

/-- The character set stripped by Python's argumentless `str.strip()`. -/
def wsSet : List Char := [' ', '\t', '\n', '\x0d', '\x0b', '\x0c']

/-- Strip characters of `cs` from the front of a string. -/
def lstrip (cs : List Char) (s : List Char) : List Char :=
  s.dropWhile (cs.contains ·)

/-- Strip characters of `cs` from the end of a string. -/
def rstrip (cs : List Char) (s : List Char) : List Char :=
  (lstrip cs s.reverse).reverse

/-- Python `s.strip(cs)`. -/
def pyStrip (cs : List Char) (s : List Char) : List Char :=
  rstrip cs (lstrip cs s)

/-- Python `s.strip()` (whitespace strip). -/
def pyStripWs (s : List Char) : List Char := pyStrip wsSet s

/-- `re.sub(r"\s+", " ", s)`: collapse every maximal run of whitespace to a
single space.  The boolean argument records whether the previous character
was part of a whitespace run already replaced. -/
def collapseAux : Bool → List Char → List Char
  | _, [] => []
  | prevWs, c :: rest =>
    if isPySpace c then
      if prevWs then collapseAux true rest
      else ' ' :: collapseAux true rest
    else c :: collapseAux false rest

/-- `re.sub(r"\s+", " ", s)`. -/
def collapseWs (s : List Char) : List Char := collapseAux false s

/-- `clean_ingredients_string` (script.py lines 50-53): collapse whitespace,
then strip boundary spaces, tabs, newlines, carriage returns, semicolons,
commas and periods. -/
def clean_ingredients_string (s : List Char) : List Char :=
  pyStrip stripSet (collapseWs s)

/-- Python `str.splitlines()` restricted to the line breaks occurring in the
script's texts: `\n`, `\r`, `\r\n`.  A trailing line break produces no final
empty line. -/
def splitlinesGo : List Char → List Char → List (List Char)
  | acc, [] => [acc.reverse]
  | acc, '\n' :: rest =>
    acc.reverse :: (if rest.isEmpty then [] else splitlinesGo [] rest)
  | acc, '\x0d' :: '\n' :: rest =>
    acc.reverse :: (if rest.isEmpty then [] else splitlinesGo [] rest)
  | acc, '\x0d' :: rest =>
    acc.reverse :: (if rest.isEmpty then [] else splitlinesGo [] rest)
  | acc, c :: rest => splitlinesGo (c :: acc) rest

/-- Python `str.splitlines()`. -/
def splitlines (s : List Char) : List (List Char) :=
  if s.isEmpty then [] else splitlinesGo [] s

/-- Tokens of the regex fragments used by the script.  `cls` is a single
character drawn from a set (sets model character classes such as `[oó]`,
`[:\-]`; matching is case-folded, modelling `re.IGNORECASE`); `opt` is `X?`
for a class `X`; `wb` is `\b`; `wsStar`/`wsPlus` are `\s*`/`\s+`;
`digits lo hi` is `\d{lo,hi}` and `digitPlus` is `\d+`. -/
inductive Tok
  | cls (cs : List Char)
  | opt (cs : List Char)
  | wb
  | wsStar
  | wsPlus
  | digits (lo hi : Nat)
  | digitPlus
deriving DecidableEq

/-- Is an optional character a `\w` character (`none` = string edge)? -/
def isWordO : Option Char → Bool
  | some c => isPyWord c
  | none => false

/-- Does a `\b` boundary hold between the previous character and the head of
the remaining input? -/
def atBoundary (prev : Option Char) (s : List Char) : Bool :=
  isWordO prev != isWordO s.head?

/-- States reachable by consuming a run of `k` characters satisfying `p`,
with `lo ≤ k ≤ hi`, listed in the backtracking priority order of a greedy
quantifier (longest run first).  Each state is (new previous character,
remaining input, number of characters consumed). -/
def repTails (p : Char → Bool) : Nat → Nat → Option Char → List Char →
    List (Option Char × List Char × Nat)
  | lo, hi, prev, s =>
    (match hi, s with
     | hi' + 1, c :: s' =>
       if p c then
         (repTails p (lo - 1) hi' (some c) s').map (fun t => (t.1, t.2.1, t.2.2 + 1))
       else []
     | _, _ => []) ++
    (if lo = 0 then [(prev, s, 0)] else [])

/-- All ways the token list can match a prefix of the remaining input `s`
(given the character `prev` just before `s`), as the list of consumed
lengths in the engine's backtracking priority order: the first element is
the match Python's engine produces. -/
def matchEnds : List Tok → Option Char → List Char → List Nat
  | [], _, _ => [0]
  | Tok.cls cs :: rest, _, c :: s' =>
    if cs.contains (pyLower c) then (matchEnds rest (some c) s').map (· + 1) else []
  | Tok.cls _ :: _, _, [] => []
  | Tok.opt cs :: rest, prev, s =>
    (match s with
     | c :: s' =>
       if cs.contains (pyLower c) then (matchEnds rest (some c) s').map (· + 1) else []
     | [] => []) ++ matchEnds rest prev s
  | Tok.wb :: rest, prev, s =>
    if atBoundary prev s then matchEnds rest prev s else []
  | Tok.wsStar :: rest, prev, s =>
    (repTails isPySpace 0 s.length prev s).flatMap
      (fun t => (matchEnds rest t.1 t.2.1).map (· + t.2.2))
  | Tok.wsPlus :: rest, prev, s =>
    (repTails isPySpace 1 s.length prev s).flatMap
      (fun t => (matchEnds rest t.1 t.2.1).map (· + t.2.2))
  | Tok.digits lo hi :: rest, prev, s =>
    (repTails isPyDigit lo hi prev s).flatMap
      (fun t => (matchEnds rest t.1 t.2.1).map (· + t.2.2))
  | Tok.digitPlus :: rest, prev, s =>
    (repTails isPyDigit 1 s.length prev s).flatMap
      (fun t => (matchEnds rest t.1 t.2.1).map (· + t.2.2))

/-- `re.search(pat, s).start()`: position of the leftmost match, if any. -/
def reSearchStartAux (toks : List Tok) : Option Char → List Char → Nat → Option Nat
  | prev, s, pos =>
    if (matchEnds toks prev s).isEmpty then
      match s with
      | [] => none
      | c :: s' => reSearchStartAux toks (some c) s' (pos + 1)
    else some pos

/-- `re.search(pat, s)`: start position of the leftmost match. -/
def reSearchStart (toks : List Tok) (s : List Char) : Option Nat :=
  reSearchStartAux toks none s 0

/-- `re.search(pat, s)` followed by `s[m.end():]`: the text after the
leftmost match (using the engine's first, i.e. greedy, end). -/
def reSearchTailAux (toks : List Tok) : Option Char → List Char → Option (List Char)
  | prev, s =>
    match matchEnds toks prev s with
    | k :: _ => some (s.drop k)
    | [] =>
      match s with
      | [] => none
      | c :: s' => reSearchTailAux toks (some c) s'

/-- Text after the leftmost match of the pattern. -/
def reSearchTail (toks : List Tok) (s : List Char) : Option (List Char) :=
  reSearchTailAux toks none s

/-- `re.search(pat + "(.+)", s, re.DOTALL).group(1)`: at the leftmost
position where the prefix pattern can match leaving at least one character
(so that the final greedy `(.+)` succeeds and captures the whole rest). -/
def reSearchGroupAux (toks : List Tok) : Option Char → List Char → Option (List Char)
  | prev, [] =>
    match (matchEnds toks prev []).find?
        (fun k => decide (k < ([] : List Char).length)) with
    | some k => some (([] : List Char).drop k)
    | none => none
  | prev, c :: s' =>
    match (matchEnds toks prev (c :: s')).find?
        (fun k => decide (k < (c :: s').length)) with
    | some k => some ((c :: s').drop k)
    | none => reSearchGroupAux toks (some c) s'

/-- Capture of the trailing `(.+)` group at the leftmost viable match. -/
def reSearchGroup (toks : List Tok) (s : List Char) : Option (List Char) :=
  reSearchGroupAux toks none s

/-- `re.match(pat, s)` (anchored at position 0): does the pattern match a
prefix of `s`? -/
def reMatchesHere (toks : List Tok) (s : List Char) : Bool :=
  !(matchEnds toks none s).isEmpty

/-- A literal piece of a pattern (each character its own one-element class;
pattern literals are written lowercase, matching case-insensitively). -/
def lit (w : String) : List Tok :=
  w.data.map (fun c => Tok.cls [c])

/-- `STOP_MARKERS` (script.py lines 36-47): each regex is a literal anchored
at a preceding `\n` (with one character class, `[oó]`). -/
def STOP_MARKERS : List (List Tok) :=
  [lit ("\nmanufactured by"),
   lit ("\nmade in"),
   lit ("\nwarning"),
   lit ("\nwww."),
   lit ("\nkeep out of reach"),
   lit ("\nuso t") ++ [Tok.cls ['o', 'ó']] ++ lit ("pico"),
   lit ("\nmodo de empleo"),
   lit ("\nmode d\x27emploi"),
   lit ("\nkey ingredients"),
   lit ("\ningredientes principales")]

/-- The common tail `\s*[:\-]\s*` of the four inline label patterns. -/
def sepToks : List Tok := [Tok.wsStar, Tok.cls [':', '-'], Tok.wsStar]

/-- `\bingredients?\b\s*[:\-]\s*` (the capture `(.+)` is handled by
`reSearchGroup`). -/
def inlinePat1 : List Tok :=
  [Tok.wb] ++ lit ("ingredient") ++ [Tok.opt ['s'], Tok.wb] ++ sepToks

/-- `\bingredients/ingr[ée]dients\b\s*[:\-]\s*`. -/
def inlinePat2 : List Tok :=
  [Tok.wb] ++ lit ("ingredients/ingr") ++ [Tok.cls ['é', 'e']] ++ lit ("dients") ++
    [Tok.wb] ++ sepToks

/-- `\bingredientes\b\s*[:\-]\s*`. -/
def inlinePat3 : List Tok := [Tok.wb] ++ lit ("ingredientes") ++ [Tok.wb] ++ sepToks

/-- `\bingredientes/ingredients\b\s*[:\-]\s*`. -/
def inlinePat4 : List Tok :=
  [Tok.wb] ++ lit ("ingredientes/ingredients") ++ [Tok.wb] ++ sepToks

/-- The inline label patterns, in the script's priority order. -/
def INLINE_PATTERNS : List (List Tok) :=
  [inlinePat1, inlinePat2, inlinePat3, inlinePat4]

/-- The `cut_pos` loop shared by both extractors (script.py lines 79-84 and
144-148): fold over a marker list, keeping the smallest leftmost-match
position, starting from `init`. -/
def cutFold (s : List Char) (ms : List (List Tok)) (init : Nat) : Nat :=
  ms.foldl
    (fun cut sm =>
      match reSearchStart sm s with
      | some p => if p < cut then p else cut
      | none => cut)
    init

/-- The `cut_pos` computation of `extract_inline_ingredients` (lines 79-84):
fold over `STOP_MARKERS`, keeping the smallest leftmost-match position,
starting from the window length. -/
def stopCut (after : List Char) : Nat :=
  cutFold after STOP_MARKERS after.length

/-- One iteration of the pattern loop in `extract_inline_ingredients`:
search the label pattern, truncate the captured window at the earliest stop
marker, normalize, and keep the result only if non-empty. -/
def tryInlinePattern (text : List Char) (toks : List Tok) : Option (List Char) :=
  match reSearchGroup toks text with
  | none => none
  | some after =>
    let ingredients := clean_ingredients_string (after.take (stopCut after))
    if ingredients.isEmpty then none else some ingredients

/-- `extract_inline_ingredients` (script.py lines 56-89). -/
def extract_inline_ingredients (text : List Char) : Option (List Char) :=
  if text.isEmpty then none
  else INLINE_PATTERNS.findSome? (tryInlinePattern text)

/-- `^\s*\d+[\.\-]?\s+`: leading table-row number prefix. -/
def rowNumToks : List Tok := [Tok.wsStar, Tok.digitPlus, Tok.opt ['.', '-'], Tok.wsPlus]

/-- `\s\d{2,7}-\d{2}-\d\b`: CAS registry number preceded by whitespace. -/
def casToks : List Tok :=
  [Tok.cls wsSet, Tok.digits 2 7, Tok.cls ['-'], Tok.digits 2 2, Tok.cls ['-'],
   Tok.digits 1 1, Tok.wb]

/-- `\s\d+[.,]\d+`: decimal quantity preceded by whitespace. -/
def decToks : List Tok := [Tok.cls wsSet, Tok.digitPlus, Tok.cls ['.', ','], Tok.digitPlus]

/-- `\sc\.s\.p\.` (IGNORECASE). -/
def cspToks : List Tok := [Tok.cls wsSet] ++ lit ("c.s.p.")

/-- `line = re.sub(r"^\s*\d+[\.\-]?\s+", "", line)` (script.py line 96): the
pattern is anchored, so at most the single leading match (with the engine's
greedy end) is removed. -/
def rowNumStrip (line : List Char) : List Char :=
  match (matchEnds rowNumToks none line).head? with
  | some k => line.drop k
  | none => line

/-- `_extract_name_from_line` (script.py lines 91-111). -/
def _extract_name_from_line (line : List Char) : Option (List Char) :=
  if (pyStripWs line).isEmpty then none
  else
    let l := rowNumStrip line
    match reSearchStart casToks l with
    | some i => some (pyStripWs (l.take i))
    | none =>
      match reSearchStart decToks l with
      | some i => some (pyStripWs (l.take i))
      | none =>
        match reSearchStart cspToks l with
        | some i => some (pyStripWs (l.take i))
        | none => some (pyStripWs l)

/-- `INGREDIENTES/INGREDIENTS\s*\(INCI\)`. -/
def header1 : List Tok :=
  lit ("ingredientes/ingredients") ++ [Tok.wsStar, Tok.cls ['(']] ++ lit ("inci") ++
    [Tok.cls [')']]

/-- `INGREDIENTE\s+INCI`. -/
def header2 : List Tok := lit ("ingrediente") ++ [Tok.wsPlus] ++ lit ("inci")

/-- `Lista de ingredientes`. -/
def header3 : List Tok := lit ("lista de ingredientes")

/-- `No\.\s*INCI name\s*CAS No\.`. -/
def header4 : List Tok :=
  lit ("no.") ++ [Tok.wsStar] ++ lit ("inci name") ++ [Tok.wsStar] ++ lit ("cas no.")

/-- The table header patterns, in the script's order. -/
def HEADERS : List (List Tok) := [header1, header2, header3, header4]

/-- The `stop_pats` of `extract_table_ingredients` (lines 136-143). -/
def SECTION_END_MARKERS : List (List Tok) :=
  [lit ("\ntotal") ++ [Tok.wb],
   lit ("\ntotal %"),
   lit ("\nrangos de concentración"),
   lit ("\nregulaci") ++ [Tok.cls ['ó', 'o']] ++ lit ("n cosmetica"),
   lit ("\nan") ++ [Tok.cls ['á', 'a']] ++ lit ("lisis"),
   lit ("\n2.") ++ [Tok.wsStar] ++ lit ("fragrance/perfume")]

/-- The block truncation of `extract_table_ingredients` (lines 144-149):
earliest leftmost match over the section-end markers. -/
def sectionCut (block : List Char) : Nat :=
  cutFold block SECTION_END_MARKERS block.length

/-- `^%?\s*INCI\b`: lone column-label line. -/
def inciLineToks : List Tok := [Tok.opt ['%'], Tok.wsStar] ++ lit ("inci") ++ [Tok.wb]

/-- The per-line loop of `extract_table_ingredients` (lines 151-168) for one
header's truncated block: strip each line, skip blank lines, lines
re-matching the header, and `% INCI` column-label lines; derive a candidate
name and keep it if at least 3 characters long. -/
def tableLineName (hToks : List Tok) (rawLine : List Char) : Option (List Char) :=
  let line := pyStripWs rawLine
  if line.isEmpty then none
  else if (reSearchStart hToks line).isSome then none
  else if reMatchesHere inciLineToks line then none
  else
    match _extract_name_from_line line with
    | none => none
    | some name => if name.length < 3 then none else some name

/-- The candidate names of one truncated block (script.py lines 151-168). -/
def tableLineNames (hToks : List Tok) (block : List Char) : List (List Char) :=
  (splitlines block).filterMap (tableLineName hToks)

/-- The per-header body of `extract_table_ingredients`: block after the
header match, truncated at the earliest section-end marker, reduced to
candidate names. -/
def headerNames (text : List Char) (hToks : List Tok) : List (List Char) :=
  match reSearchTail hToks text with
  | none => []
  | some block => tableLineNames hToks (block.take (sectionCut block))

/-- Accumulation of candidate names over all header patterns (the
`all_names` list). -/
def allTableNames (text : List Char) : List (List Char) :=
  HEADERS.flatMap (headerNames text)

/-- The `seen`/`unique` deduplication loop of `extract_table_ingredients`
(lines 173-178). -/
def dedupSeen : List (List Char) → List (List Char) → List (List Char)
  | _, [] => []
  | seen, n :: ns =>
    if seen.contains n then dedupSeen seen ns else n :: dedupSeen (n :: seen) ns

/-- `extract_table_ingredients` (script.py lines 114-180). -/
def extract_table_ingredients (text : List Char) : Option (List Char) :=
  if text.isEmpty then none
  else
    let all_names := allTableNames text
    if all_names.isEmpty then none
    else some (List.intercalate (", ".data) (dedupSeen [] all_names))

/-- `extract_text_from_pdf` (script.py lines 12-19), with the pypdf decoder
modelled as the black-box list of per-page texts: join with newlines, then
strip. -/
def extract_text_from_pdf (pages : List (List Char)) : List Char :=
  pyStripWs (List.intercalate ['\n'] pages)

/-- `extract_text_with_ocr` (script.py lines 22-33), with rasterizer and OCR
engine modelled as the black-box list of per-page recognized texts. -/
def extract_text_with_ocr (pages : List (List Char)) : List Char :=
  pyStripWs (List.intercalate ['\n'] pages)

/-- Python truthiness of an optional string (`None` and `""` are falsy). -/
def truthy : Option (List Char) → Bool
  | some s => !s.isEmpty
  | none => false

/-- Lines 190-198 of `extract_ingredients_from_pdf`: try the inline
extractor, return its result if truthy, else likewise the tabular extractor,
else `None`. -/
def runHeuristics (text : List Char) : Option (List Char) :=
  let i1 := extract_inline_ingredients text
  if truthy i1 then i1
  else
    let i2 := extract_table_ingredients text
    if truthy i2 then i2 else none

/-- Lines 185-188 of `extract_ingredients_from_pdf`: use native text unless
it is shorter than 40 characters, in which case use OCR text. -/
def recoverText (nativePages ocrPages : List (List Char)) : List Char :=
  let text := extract_text_from_pdf nativePages
  if text.length < 40 then extract_text_with_ocr ocrPages else text

/-- `extract_ingredients_from_pdf` (script.py lines 183-198). -/
def extract_ingredients_from_pdf (nativePages ocrPages : List (List Char)) :
    Option (List Char) :=
  runHeuristics (recoverText nativePages ocrPages)

end Script

-- sanity examples for the extractors
example : Script.extract_inline_ingredients ("Ingredients: Aqua, Glycerin.".data)
    = some (("Aqua, Glycerin").data) := by decide
example :
    Script.extract_inline_ingredients
      (("Ingredientes: Aqua, Glycerin.\nModo de empleo: aplicar.").data)
    = some (("Aqua, Glycerin").data) := by decide
example : Script._extract_name_from_line (("1. Aqua 7732-18-5 0.5").data)
    = some (("Aqua").data) := by decide
example : Script.extract_inline_ingredients (("Ingredients Aqua, Glycerin").data)
    = none := by decide
example :
    Script.extract_table_ingredients
      (("INGREDIENTES/INGREDIENTS (INCI)\nAqua\nGlycerin\nTotal 100%").data)
    = some (("Aqua, Glycerin").data) := by decide
example : Script.extract_inline_ingredients ("".data) = none := by decide
example : Script.extract_table_ingredients ("".data) = none := by decide

-- sanity examples for the utilities
example : Script.clean_ingredients_string ("  Aqua,  Glycerin. ".data)
    = ("Aqua, Glycerin").data := by decide
example : Script.splitlines ("a\nb\n".data) = [['a'], ['b']] := by decide
example : Script.splitlines ("".data) = [] := by decide
example : Script.splitlines ("\n\n".data) = [[], []] := by decide
example : Script.pyLower 'Ó' = 'ó' := by decide

namespace Script

/-! ### Normalization lemmas (C9 and shared) -/

/-- Invariant of `collapseWs` output: every whitespace character is a plain
space, and no two adjacent characters are both whitespace. -/
def GoodWs (u : List Char) : Prop :=
  (∀ c ∈ u, isPySpace c = true → c = ' ') ∧
    u.Chain' (fun a b => ¬(isPySpace a = true ∧ isPySpace b = true))

theorem collapseAux_good (s : List Char) :
    GoodWs (collapseAux false s) ∧ GoodWs (collapseAux true s) ∧
      ∀ c t, collapseAux true s = c :: t → isPySpace c = false := by
  induction s with
  | nil =>
    refine ⟨⟨by simp [collapseAux], by simp [collapseAux]⟩,
      ⟨by simp [collapseAux], by simp [collapseAux]⟩, ?_⟩
    intro c t h
    simp [collapseAux] at h
  | cons c s ih =>
    obtain ⟨⟨ihf_mem, ihf_ch⟩, ⟨iht_mem, iht_ch⟩, iht_hd⟩ := ih
    by_cases hc : isPySpace c = true
    · have hf : collapseAux false (c :: s) = ' ' :: collapseAux true s := by
        simp [collapseAux, hc]
      have ht : collapseAux true (c :: s) = collapseAux true s := by
        simp [collapseAux, hc]
      refine ⟨?_, ?_, ?_⟩
      · rw [hf]
        constructor
        · intro x hx hwx
          rcases List.mem_cons.1 hx with h | h
          · exact h
          · exact iht_mem x h hwx
        · rw [List.chain'_cons']
          refine ⟨?_, iht_ch⟩
          intro y hy hcontra
          cases hu : collapseAux true s with
          | nil => rw [hu] at hy; simp at hy
          | cons d t =>
            rw [hu] at hy
            simp at hy
            rw [← hy] at hcontra
            rw [iht_hd d t hu] at hcontra
            exact absurd hcontra.2 (by simp)
      · rw [ht]; exact ⟨iht_mem, iht_ch⟩
      · intro x t h
        rw [ht] at h
        exact iht_hd x t h
    · have hf : collapseAux false (c :: s) = c :: collapseAux false s := by
        simp [collapseAux, hc]
      have ht : collapseAux true (c :: s) = c :: collapseAux false s := by
        simp [collapseAux, hc]
      have good : GoodWs (c :: collapseAux false s) := by
        constructor
        · intro x hx hwx
          rcases List.mem_cons.1 hx with h | h
          · subst h; exact absurd hwx hc
          · exact ihf_mem x h hwx
        · rw [List.chain'_cons']
          refine ⟨?_, ihf_ch⟩
          intro y _
          simp [hc]
      refine ⟨by rw [hf]; exact good, by rw [ht]; exact good, ?_⟩
      intro x t h
      rw [ht] at h
      have hx : x = c := (List.cons.inj h).1.symm
      subst hx
      exact eq_false_of_ne_true hc

theorem collapse_goodWs (s : List Char) : GoodWs (collapseWs s) :=
  (collapseAux_good s).1

theorem collapse_fix (u : List Char) (h : GoodWs u) : collapseWs u = u := by
  induction u with
  | nil => rfl
  | cons c u ih =>
    obtain ⟨hmem, hch⟩ := h
    rw [List.chain'_cons'] at hch
    by_cases hc : isPySpace c = true
    · have hcsp : c = ' ' := hmem c (by simp) hc
      subst hcsp
      cases u with
      | nil => rfl
      | cons d u' =>
        have hd : ¬(isPySpace ' ' = true ∧ isPySpace d = true) := hch.1 d (by simp)
        have hdf : isPySpace d = false := by
          by_cases h' : isPySpace d = true
          · exact absurd ⟨by decide, h'⟩ hd
          · exact eq_false_of_ne_true h'
        have ihu : collapseWs (d :: u') = d :: u' := by
          refine ih ⟨?_, hch.2⟩
          intro x hx hwx
          exact hmem x (List.mem_cons_of_mem _ hx) hwx
        have h2 : collapseWs (d :: u') = d :: collapseAux false u' := by
          simp [collapseWs, collapseAux, hdf]
        have h3 : collapseAux false u' = u' := by
          have h4 := h2.symm.trans ihu
          exact (List.cons.inj h4).2
        show collapseAux false (' ' :: d :: u') = ' ' :: d :: u'
        simp [collapseAux, hdf, h3]
    · have hcf : isPySpace c = false := eq_false_of_ne_true hc
      have ihu : collapseWs u = u := by
        refine ih ⟨?_, hch.2⟩
        intro x hx hwx
        exact hmem x (List.mem_cons_of_mem _ hx) hwx
      show collapseAux false (c :: u) = c :: u
      simp [collapseAux, hcf]
      exact ihu

theorem GoodWs.dropWhileClosed (p : Char → Bool) {u : List Char} (h : GoodWs u) :
    GoodWs (u.dropWhile p) :=
  ⟨fun c hc hw => h.1 c ((List.dropWhile_suffix p).sublist.subset hc) hw,
   h.2.suffix (List.dropWhile_suffix p)⟩

theorem GoodWs.reverseClosed {u : List Char} (h : GoodWs u) : GoodWs u.reverse := by
  refine ⟨fun c hc hw => h.1 c (List.mem_reverse.1 hc) hw, ?_⟩
  rw [List.chain'_reverse]
  exact h.2.imp (fun a b hab => fun hba => hab ⟨hba.2, hba.1⟩)

theorem GoodWs.pyStripClosed (cs : List Char) {u : List Char} (h : GoodWs u) :
    GoodWs (pyStrip cs u) :=
  ((((h.dropWhileClosed _).reverseClosed).dropWhileClosed _).reverseClosed)

theorem dropWhile_dropWhile_self (p : Char → Bool) (l : List Char) :
    List.dropWhile p (List.dropWhile p l) = List.dropWhile p l := by
  induction l with
  | nil => rfl
  | cons c l ih =>
    by_cases hc : p c
    · simp [List.dropWhile, hc, ih]
    · simp [List.dropWhile, hc]

theorem lstrip_lstrip (cs : List Char) (s : List Char) :
    lstrip cs (lstrip cs s) = lstrip cs s :=
  dropWhile_dropWhile_self _ s

theorem lstrip_rstrip (cs : List Char) (y : List Char) (hy : lstrip cs y = y) :
    lstrip cs (rstrip cs y) = rstrip cs y := by
  have hpre : ∃ t, rstrip cs y ++ t = y := by
    have hsuf := List.dropWhile_suffix (l := y.reverse) (fun x => cs.contains x)
    have h2 : (rstrip cs y).reverse <:+ y.reverse := by
      simpa [rstrip, lstrip] using hsuf
    exact List.reverse_suffix.1 h2
  obtain ⟨t, ht⟩ := hpre
  cases hw : rstrip cs y with
  | nil => simp [lstrip]
  | cons c y' =>
    rw [hw] at ht
    have hcy : y = c :: (y' ++ t) := by rw [← ht]; simp
    have hqc : cs.contains c = false := by
      cases hq : cs.contains c
      · rfl
      · exfalso
        have h1 : lstrip cs y = lstrip cs (y' ++ t) := by
          rw [hcy]
          simp only [lstrip]
          exact List.dropWhile_cons_of_pos (by simpa using hq)
        rw [hy] at h1
        have hle : (lstrip cs (y' ++ t)).length ≤ (y' ++ t).length :=
          (List.dropWhile_suffix _).sublist.length_le
        have hlen : y.length = (lstrip cs (y' ++ t)).length := congrArg List.length h1
        have hy2 : y.length = (y' ++ t).length + 1 := by rw [hcy]; simp
        omega
    simp only [lstrip]
    exact List.dropWhile_cons_of_neg (by simpa using hqc)

theorem rstrip_rstrip (cs : List Char) (s : List Char) :
    rstrip cs (rstrip cs s) = rstrip cs s := by
  simp [rstrip, lstrip, dropWhile_dropWhile_self]

theorem pyStrip_idem (cs : List Char) (s : List Char) :
    pyStrip cs (pyStrip cs s) = pyStrip cs s := by
  unfold pyStrip
  rw [lstrip_rstrip cs (lstrip cs s) (lstrip_lstrip cs s), rstrip_rstrip]

theorem clean_idem (s : List Char) :
    clean_ingredients_string (clean_ingredients_string s) = clean_ingredients_string s := by
  unfold clean_ingredients_string
  rw [collapse_fix _ ((collapse_goodWs s).pyStripClosed stripSet), pyStrip_idem]

/-- C9: normalization is idempotent: for every string `s`,
`clean_ingredients_string (clean_ingredients_string s) = clean_ingredients_string s`,
where `clean_ingredients_string` collapses whitespace runs to a single space
and strips leading/trailing spaces, tabs, newlines, carriage returns,
semicolons, commas and periods. -/
theorem C9_normalize_idempotent (s : List Char) :
    clean_ingredients_string (clean_ingredients_string s) = clean_ingredients_string s :=
  clean_idem s

end Script

namespace Script

/-! ### Row truncation (C3) -/

theorem extract_name_cas (line : List Char) (i : Nat)
    (hne : ¬(pyStripWs line).isEmpty = true)
    (hcas : reSearchStart casToks (rowNumStrip line) = some i) :
    _extract_name_from_line line = some (pyStripWs ((rowNumStrip line).take i)) := by
  simp only [_extract_name_from_line, if_neg hne]
  rw [hcas]

theorem extract_name_dec (line : List Char) (i : Nat)
    (hne : ¬(pyStripWs line).isEmpty = true)
    (hcas : reSearchStart casToks (rowNumStrip line) = none)
    (hdec : reSearchStart decToks (rowNumStrip line) = some i) :
    _extract_name_from_line line = some (pyStripWs ((rowNumStrip line).take i)) := by
  simp only [_extract_name_from_line, if_neg hne]
  rw [hcas, hdec]

theorem extract_name_csp (line : List Char) (i : Nat)
    (hne : ¬(pyStripWs line).isEmpty = true)
    (hcas : reSearchStart casToks (rowNumStrip line) = none)
    (hdec : reSearchStart decToks (rowNumStrip line) = none)
    (hcsp : reSearchStart cspToks (rowNumStrip line) = some i) :
    _extract_name_from_line line = some (pyStripWs ((rowNumStrip line).take i)) := by
  simp only [_extract_name_from_line, if_neg hne]
  rw [hcas, hdec, hcsp]

/-- C3: a table row line is reduced to a name by first stripping the leading
row-number prefix (`rowNumStrip`) and then truncating at the leftmost CAS
number match if there is one, else at the leftmost decimal-quantity match,
else at the leftmost `c.s.p.` match — a fixed priority order, not
leftmost-match across the three rules.  In particular
`"1. Aqua 7732-18-5 0.5"` yields `"Aqua"`, and in
`"Aqua 1.5 7732-18-5"` the CAS rule (match at 8) beats the earlier decimal
match (at 4), yielding `"Aqua 1.5"` rather than `"Aqua"`. -/
theorem C3_row_truncation_priority :
    _extract_name_from_line (("1. Aqua 7732-18-5 0.5").data) = some (("Aqua").data) ∧
    (∀ line i, ¬(pyStripWs line).isEmpty = true →
      reSearchStart casToks (rowNumStrip line) = some i →
      _extract_name_from_line line = some (pyStripWs ((rowNumStrip line).take i))) ∧
    (∀ line i, ¬(pyStripWs line).isEmpty = true →
      reSearchStart casToks (rowNumStrip line) = none →
      reSearchStart decToks (rowNumStrip line) = some i →
      _extract_name_from_line line = some (pyStripWs ((rowNumStrip line).take i))) ∧
    (∀ line i, ¬(pyStripWs line).isEmpty = true →
      reSearchStart casToks (rowNumStrip line) = none →
      reSearchStart decToks (rowNumStrip line) = none →
      reSearchStart cspToks (rowNumStrip line) = some i →
      _extract_name_from_line line = some (pyStripWs ((rowNumStrip line).take i))) ∧
    reSearchStart casToks (rowNumStrip (("Aqua 1.5 7732-18-5").data)) = some 8 ∧
    reSearchStart decToks (rowNumStrip (("Aqua 1.5 7732-18-5").data)) = some 4 ∧
    _extract_name_from_line (("Aqua 1.5 7732-18-5").data) = some (("Aqua 1.5").data) :=
  ⟨by decide, extract_name_cas, extract_name_dec, extract_name_csp,
   by decide, by decide, by decide⟩

/-- Closed instance of the CAS-priority branch of
`C3_row_truncation_priority` at the row `"Aqua 1.5 7732-18-5"`, where the
decimal rule matches at position 4, before the CAS match at position 8. -/
theorem C3_row_truncation_priority_witness :
    ¬(pyStripWs (("Aqua 1.5 7732-18-5").data)).isEmpty = true ∧
    reSearchStart casToks (rowNumStrip (("Aqua 1.5 7732-18-5").data)) = some 8 ∧
    _extract_name_from_line (("Aqua 1.5 7732-18-5").data)
      = some (pyStripWs ((rowNumStrip (("Aqua 1.5 7732-18-5").data)).take 8)) :=
  ⟨by decide, by decide,
   C3_row_truncation_priority.2.1 (("Aqua 1.5 7732-18-5").data) 8 (by decide) (by decide)⟩

/-! ### Tabular deduplication (C4) -/

/-- First-occurrence deduplication, stated as the canonical recursion: keep
the head, delete its later duplicates, recurse. -/
def firstOccur : List (List Char) → List (List Char)
  | [] => []
  | x :: xs => x :: firstOccur (xs.filter (fun y => y != x))
termination_by l => l.length
decreasing_by
  simp_wf
  exact Nat.lt_succ_of_le (List.length_filter_le _ _)

theorem dedupSeen_eq_firstOccur_filter (l : List (List Char)) :
    ∀ seen, dedupSeen seen l = firstOccur (l.filter (fun x => !seen.contains x)) := by
  induction l with
  | nil => intro seen; simp [dedupSeen, firstOccur]
  | cons x xs ih =>
    intro seen
    by_cases hx : seen.contains x = true
    · have hxm : x ∈ seen := by simpa using hx
      have hstep : dedupSeen seen (x :: xs) = dedupSeen seen xs := by
        simp only [dedupSeen]
        rw [if_pos hx]
      rw [hstep, ih seen]
      congr 1
      simp [List.filter_cons, hxm]
    · have hx' : seen.contains x = false := eq_false_of_ne_true hx
      have hxm : x ∉ seen := by simpa using hx'
      have hstep : dedupSeen seen (x :: xs) = x :: dedupSeen (x :: seen) xs := by
        simp only [dedupSeen]
        rw [if_neg hx]
      have hfc : (x :: xs).filter (fun y => !seen.contains y)
          = x :: xs.filter (fun y => !seen.contains y) := by
        simp [List.filter_cons, hxm]
      rw [hstep, ih (x :: seen), hfc, firstOccur]
      rw [List.filter_filter]
      have hpred : (fun y : List Char => !(x :: seen).contains y)
          = (fun y => (y != x) && !seen.contains y) := by
        funext y
        simp only [List.contains_cons, Bool.not_or, bne]
      rw [hpred]

theorem dedupSeen_eq_firstOccur (l : List (List Char)) :
    dedupSeen [] l = firstOccur l := by
  rw [dedupSeen_eq_firstOccur_filter l []]
  congr 1
  simp

theorem mem_firstOccur (l : List (List Char)) (a : List Char) :
    a ∈ firstOccur l ↔ a ∈ l := by
  induction l using firstOccur.induct with
  | case1 => simp [firstOccur]
  | case2 x xs ih =>
    rw [firstOccur]
    constructor
    · intro h
      rcases List.mem_cons.1 h with h | h
      · simp [h]
      · exact List.mem_cons_of_mem _ (List.mem_of_mem_filter (ih.1 h))
    · intro h
      rcases List.mem_cons.1 h with h | h
      · simp [h]
      · by_cases hax : a = x
        · simp [hax]
        · have hmem : a ∈ xs.filter (fun y => y != x) := by
            rw [List.mem_filter]
            exact ⟨h, by simp [hax]⟩
          exact List.mem_cons_of_mem _ (ih.2 hmem)

theorem firstOccur_sublist (l : List (List Char)) : List.Sublist (firstOccur l) l := by
  induction l using firstOccur.induct with
  | case1 => simp [firstOccur]
  | case2 x xs ih =>
    rw [firstOccur]
    exact List.Sublist.cons₂ x (ih.trans (List.filter_sublist xs))

theorem firstOccur_nodup (l : List (List Char)) : (firstOccur l).Nodup := by
  induction l using firstOccur.induct with
  | case1 => simp [firstOccur]
  | case2 x xs ih =>
    rw [firstOccur]
    refine List.nodup_cons.2 ⟨?_, ih⟩
    intro hmem
    have h1 := (mem_firstOccur _ _).1 hmem
    rw [List.mem_filter] at h1
    simp at h1

theorem table_result_eq (text s : List Char)
    (h : extract_table_ingredients text = some s) :
    s = List.intercalate (", ".data) (firstOccur (allTableNames text)) := by
  rw [← dedupSeen_eq_firstOccur]
  simp only [extract_table_ingredients] at h
  split at h
  · exact absurd h (by simp)
  · split at h
    · exact absurd h (by simp)
    · exact (Option.some.inj h).symm

/-- C4: whenever the tabular extractor returns a string, that string is the
accumulated candidate names deduplicated by exact equality down to first
occurrences (`firstOccur`), joined with `", "`; `firstOccur` has no
duplicates, is a subsequence of the accumulated names (first-occurrence
order preserved) and keeps exactly their members.  In particular a block
with two rows mapping to the same name yields that name exactly once. -/
theorem C4_table_dedup_first_occurrence :
    (∀ text s, extract_table_ingredients text = some s →
      s = List.intercalate (", ".data) (firstOccur (allTableNames text))) ∧
    (∀ l, (firstOccur l).Nodup) ∧
    (∀ l, List.Sublist (firstOccur l) l) ∧
    (∀ l a, a ∈ firstOccur l ↔ a ∈ l) ∧
    extract_table_ingredients
        (("INGREDIENTE INCI\n1. Aqua 7732-18-5\n2. Aqua 7732-18-5").data)
      = some (("Aqua").data) :=
  ⟨table_result_eq, firstOccur_nodup, firstOccur_sublist, mem_firstOccur, by decide⟩

/-- Closed instance of `C4_table_dedup_first_occurrence` on a block whose two
rows both reduce to the name `"Aqua"`. -/
theorem C4_table_dedup_first_occurrence_witness :
    extract_table_ingredients
        (("INGREDIENTE INCI\n1. Aqua 7732-18-5\n2. Aqua 7732-18-5").data)
      = some (("Aqua").data) ∧
    ("Aqua").data = List.intercalate (", ".data)
      (firstOccur (allTableNames
        (("INGREDIENTE INCI\n1. Aqua 7732-18-5\n2. Aqua 7732-18-5").data))) :=
  ⟨by decide, C4_table_dedup_first_occurrence.1 _ _ (by decide)⟩

end Script

namespace Script

/-! ### Leftmost search characterization and earliest stop marker (C1) -/

/-- Tokens that ignore the previous character (no `\b`). -/
def isClsTok : Tok → Bool
  | Tok.cls _ => true
  | _ => false

theorem matchEnds_prev_indep (toks : List Tok) (h : toks.all isClsTok = true)
    (p1 p2 : Option Char) (s : List Char) :
    matchEnds toks p1 s = matchEnds toks p2 s := by
  cases toks with
  | nil => rfl
  | cons t rest =>
    cases t with
    | cls cs => cases s with
      | nil => rfl
      | cons c s' => rfl
    | opt cs => simp [List.all_cons, isClsTok] at h
    | wb => simp [List.all_cons, isClsTok] at h
    | wsStar => simp [List.all_cons, isClsTok] at h
    | wsPlus => simp [List.all_cons, isClsTok] at h
    | digits lo hi => simp [List.all_cons, isClsTok] at h
    | digitPlus => simp [List.all_cons, isClsTok] at h

/-- Declarative "the pattern matches at position `p` of `s`" for patterns
that ignore the previous character. -/
def stopMatchAt (sm : List Tok) (s : List Char) (p : Nat) : Prop :=
  matchEnds sm none (s.drop p) ≠ []

theorem reSearchStartAux_none (toks : List Tok)
    (hpi : ∀ (p1 p2 : Option Char) s, matchEnds toks p1 s = matchEnds toks p2 s) :
    ∀ (s : List Char) (prev : Option Char) (pos : Nat),
      reSearchStartAux toks prev s pos = none →
      ∀ j, matchEnds toks none (s.drop j) = [] := by
  intro s
  induction s with
  | nil =>
    intro prev pos h j
    simp only [reSearchStartAux] at h
    by_cases he : (matchEnds toks prev []).isEmpty = true
    · rw [List.drop_nil]
      rw [hpi none prev]
      exact List.isEmpty_iff.1 he
    · rw [if_neg he] at h
      exact absurd h (by simp)
  | cons c s' ih =>
    intro prev pos h j
    simp only [reSearchStartAux] at h
    by_cases he : (matchEnds toks prev (c :: s')).isEmpty = true
    · rw [if_pos he] at h
      cases j with
      | zero =>
        rw [List.drop_zero, hpi none prev]
        exact List.isEmpty_iff.1 he
      | succ j' =>
        rw [List.drop_succ_cons]
        exact ih (some c) (pos + 1) h j'
    · rw [if_neg he] at h
      exact absurd h (by simp)

theorem reSearchStartAux_some (toks : List Tok)
    (hpi : ∀ (p1 p2 : Option Char) s, matchEnds toks p1 s = matchEnds toks p2 s) :
    ∀ (s : List Char) (prev : Option Char) (pos p : Nat),
      reSearchStartAux toks prev s pos = some p →
      pos ≤ p ∧ matchEnds toks none (s.drop (p - pos)) ≠ [] ∧
        ∀ j < p - pos, matchEnds toks none (s.drop j) = [] := by
  intro s
  induction s with
  | nil =>
    intro prev pos p h
    simp only [reSearchStartAux] at h
    by_cases he : (matchEnds toks prev []).isEmpty = true
    · rw [if_pos he] at h
      exact absurd h (by simp)
    · rw [if_neg he] at h
      have hp : pos = p := by simpa using h
      subst hp
      refine ⟨Nat.le_refl _, ?_, ?_⟩
      · rw [Nat.sub_self, List.drop_nil, hpi none prev]
        simpa using he
      · intro j hj
        omega
  | cons c s' ih =>
    intro prev pos p h
    simp only [reSearchStartAux] at h
    by_cases he : (matchEnds toks prev (c :: s')).isEmpty = true
    · rw [if_pos he] at h
      obtain ⟨h1, h2, h3⟩ := ih (some c) (pos + 1) p h
      refine ⟨by omega, ?_, ?_⟩
      · have hd : p - pos = (p - (pos + 1)) + 1 := by omega
        rw [hd, List.drop_succ_cons]
        exact h2
      · intro j hj
        cases j with
        | zero =>
          rw [List.drop_zero, hpi none prev]
          simpa using he
        | succ j' =>
          rw [List.drop_succ_cons]
          exact h3 j' (by omega)
    · rw [if_neg he] at h
      have hp : pos = p := by simpa using h
      subst hp
      refine ⟨Nat.le_refl _, ?_, ?_⟩
      · rw [Nat.sub_self, List.drop_zero, hpi none prev]
        simpa using he
      · intro j hj
        omega

theorem reSearchStart_some_spec (toks : List Tok)
    (hpi : ∀ (p1 p2 : Option Char) s, matchEnds toks p1 s = matchEnds toks p2 s)
    (s : List Char) (p : Nat) (h : reSearchStart toks s = some p) :
    stopMatchAt toks s p ∧ ∀ j < p, ¬ stopMatchAt toks s j := by
  obtain ⟨_, h2, h3⟩ := reSearchStartAux_some toks hpi s none 0 p h
  refine ⟨by simpa [stopMatchAt] using h2, ?_⟩
  intro j hj hmat
  exact hmat (by simpa using h3 j (by omega))

theorem reSearchStart_none_spec (toks : List Tok)
    (hpi : ∀ (p1 p2 : Option Char) s, matchEnds toks p1 s = matchEnds toks p2 s)
    (s : List Char) (h : reSearchStart toks s = none) :
    ∀ j, ¬ stopMatchAt toks s j := by
  intro j hmat
  exact hmat (reSearchStartAux_none toks hpi s none 0 h j)

theorem reSearchStart_min (toks : List Tok)
    (hpi : ∀ (p1 p2 : Option Char) s, matchEnds toks p1 s = matchEnds toks p2 s)
    (s : List Char) (p : Nat) (hm : stopMatchAt toks s p) :
    ∃ q, reSearchStart toks s = some q ∧ q ≤ p := by
  cases h : reSearchStart toks s with
  | none => exact absurd hm (reSearchStart_none_spec toks hpi s h p)
  | some q =>
    refine ⟨q, rfl, ?_⟩
    by_contra hlt
    exact (reSearchStart_some_spec toks hpi s q h).2 p (by omega) hm

theorem cutFold_le_init (s : List Char) (ms : List (List Tok)) :
    ∀ init, cutFold s ms init ≤ init := by
  induction ms with
  | nil => intro init; exact Nat.le_refl _
  | cons sm ms ih =>
    intro init
    have hstep : cutFold s (sm :: ms) init
        = cutFold s ms (match reSearchStart sm s with
            | some p => if p < init then p else init
            | none => init) := rfl
    rw [hstep]
    cases h : reSearchStart sm s with
    | none => exact ih init
    | some p =>
      by_cases hp : p < init
      · simp only [hp, if_true]
        exact (ih p).trans (Nat.le_of_lt hp)
      · simp only [hp, if_false]
        exact ih init

theorem cutFold_le_match (s : List Char) (ms : List (List Tok)) :
    ∀ init sm q, sm ∈ ms → reSearchStart sm s = some q → cutFold s ms init ≤ q := by
  induction ms with
  | nil => intro init sm q h; exact absurd h (by simp)
  | cons sm0 ms ih =>
    intro init sm q hmem hq
    have hstep : cutFold s (sm0 :: ms) init
        = cutFold s ms (match reSearchStart sm0 s with
            | some p => if p < init then p else init
            | none => init) := rfl
    rw [hstep]
    rcases List.mem_cons.1 hmem with h | h
    · subst h
      rw [hq]
      by_cases hp : q < init
      · simp only [hp, if_true]
        exact cutFold_le_init s ms q
      · simp only [hp, if_false]
        exact (cutFold_le_init s ms init).trans (by omega)
    · exact ih _ sm q h hq

theorem cutFold_cases (s : List Char) (ms : List (List Tok)) :
    ∀ init, cutFold s ms init = init ∨
      ∃ sm ∈ ms, reSearchStart sm s = some (cutFold s ms init) := by
  induction ms with
  | nil => intro init; exact Or.inl rfl
  | cons sm0 ms ih =>
    intro init
    cases h : reSearchStart sm0 s with
    | none =>
      have hred : cutFold s (sm0 :: ms) init = cutFold s ms init := by
        show cutFold s ms (match reSearchStart sm0 s with
          | some p => if p < init then p else init
          | none => init) = cutFold s ms init
        rw [h]
      rw [hred]
      rcases ih init with h1 | ⟨sm, hmem, hsm⟩
      · exact Or.inl h1
      · exact Or.inr ⟨sm, List.mem_cons_of_mem _ hmem, hsm⟩
    | some p =>
      have hred : cutFold s (sm0 :: ms) init
          = cutFold s ms (if p < init then p else init) := by
        show cutFold s ms (match reSearchStart sm0 s with
          | some p => if p < init then p else init
          | none => init) = _
        rw [h]
      rw [hred]
      by_cases hp : p < init
      · rw [if_pos hp]
        rcases ih p with h1 | ⟨sm, hmem, hsm⟩
        · exact Or.inr ⟨sm0, List.mem_cons_self _ _, by rw [h, h1]⟩
        · exact Or.inr ⟨sm, List.mem_cons_of_mem _ hmem, hsm⟩
      · rw [if_neg hp]
        rcases ih init with h1 | ⟨sm, hmem, hsm⟩
        · exact Or.inl h1
        · exact Or.inr ⟨sm, List.mem_cons_of_mem _ hmem, hsm⟩

theorem stop_markers_clsOnly : ∀ sm ∈ STOP_MARKERS, sm.all isClsTok = true := by
  decide

theorem stopCut_le (after : List Char) (p : Nat) (sm : List Tok)
    (hmem : sm ∈ STOP_MARKERS) (hm : stopMatchAt sm after p) :
    stopCut after ≤ p := by
  obtain ⟨q, hq, hqp⟩ := reSearchStart_min sm
    (matchEnds_prev_indep sm (stop_markers_clsOnly sm hmem)) after p hm
  exact (cutFold_le_match after STOP_MARKERS after.length sm q hmem hq).trans hqp

theorem stopCut_is_match_or_len (after : List Char) :
    stopCut after = after.length ∨
      ∃ sm ∈ STOP_MARKERS, stopMatchAt sm after (stopCut after) := by
  rcases cutFold_cases after STOP_MARKERS after.length with h | ⟨sm, hmem, hsm⟩
  · exact Or.inl h
  · exact Or.inr ⟨sm, hmem,
      (reSearchStart_some_spec sm
        (matchEnds_prev_indep sm (stop_markers_clsOnly sm hmem)) after _ hsm).1⟩

theorem findSome?_mem {α β : Type} (f : α → Option β) (l : List α) (b : β)
    (h : l.findSome? f = some b) : ∃ a ∈ l, f a = some b := by
  induction l with
  | nil => simp [List.findSome?] at h
  | cons x xs ih =>
    rw [List.findSome?_cons] at h
    cases hfx : f x with
    | some b' =>
      rw [hfx] at h
      refine ⟨x, List.mem_cons_self _ _, ?_⟩
      rw [hfx]
      exact h
    | none =>
      rw [hfx] at h
      obtain ⟨a, hmem, hfa⟩ := ih h
      exact ⟨a, List.mem_cons_of_mem _ hmem, hfa⟩

theorem inline_some_shape (text s : List Char)
    (h : extract_inline_ingredients text = some s) :
    ∃ toks ∈ INLINE_PATTERNS, ∃ after, reSearchGroup toks text = some after ∧
      s = clean_ingredients_string (after.take (stopCut after)) := by
  unfold extract_inline_ingredients at h
  split at h
  · exact absurd h (by simp)
  · obtain ⟨toks, hmem, htoks⟩ := findSome?_mem _ _ _ h
    refine ⟨toks, hmem, ?_⟩
    unfold tryInlinePattern at htoks
    split at htoks
    · exact absurd htoks (by simp)
    · rename_i after hafter
      refine ⟨after, hafter, ?_⟩
      have htoks' :
          (if (clean_ingredients_string (List.take (stopCut after) after)).isEmpty = true
            then none
            else some (clean_ingredients_string (List.take (stopCut after) after)))
          = some s := htoks
      by_cases hing :
          (clean_ingredients_string (List.take (stopCut after) after)).isEmpty = true
      · rw [if_pos hing] at htoks'
        exact absurd htoks' (by simp)
      · rw [if_neg hing] at htoks'
        exact (Option.some.inj htoks').symm

/-- C1: whatever the inline extractor returns was produced from some label
pattern's candidate window truncated at `stopCut`, and `stopCut` is exactly
the earliest stop-marker occurrence: it is a lower bound of every position
where any entry of `STOP_MARKERS` matches (leftmost match across all
markers, independent of their order in the list), and is itself either such
a match position or the window length when no marker matches. -/
theorem C1_inline_truncates_at_earliest_stop :
    (∀ text s, extract_inline_ingredients text = some s →
      ∃ toks ∈ INLINE_PATTERNS, ∃ after, reSearchGroup toks text = some after ∧
        s = clean_ingredients_string (after.take (stopCut after))) ∧
    (∀ after p sm, sm ∈ STOP_MARKERS → stopMatchAt sm after p → stopCut after ≤ p) ∧
    (∀ after, stopCut after = after.length ∨
      ∃ sm ∈ STOP_MARKERS, stopMatchAt sm after (stopCut after)) :=
  ⟨inline_some_shape, fun after p sm hmem hm => stopCut_le after p sm hmem hm,
   stopCut_is_match_or_len⟩

/-- Closed instance of `C1_inline_truncates_at_earliest_stop` on the window
`"Aqua\nwww.x\nwarning y"`: the `\nwww\.` marker matches at 4, the
`\nwarning` marker at 10, and the computed cut is bounded by the earlier
position 4 (and indeed equals it). -/
theorem C1_inline_truncates_at_earliest_stop_witness :
    lit ("\nwww.") ∈ STOP_MARKERS ∧
    stopMatchAt (lit ("\nwww.")) (("Aqua\nwww.x\nwarning y").data) 4 ∧
    stopCut (("Aqua\nwww.x\nwarning y").data) ≤ 4 ∧
    stopCut (("Aqua\nwww.x\nwarning y").data) = 4 ∧
    extract_inline_ingredients (("Ingredients: Aqua\nwww.x\nwarning y").data)
      = some (("Aqua").data) :=
  ⟨by decide, by unfold stopMatchAt; decide,
   C1_inline_truncates_at_earliest_stop.2.1 (("Aqua\nwww.x\nwarning y").data) 4
     (lit ("\nwww.")) (by decide) (by unfold stopMatchAt; decide),
   by decide, by decide⟩

end Script

namespace Script

/-! ### Stop markers are newline-anchored (C10) -/

theorem lookup_mem_values (l : List (Char × Char)) (a b : Char)
    (h : l.lookup a = some b) : b ∈ l.map Prod.snd := by
  induction l with
  | nil => simp [List.lookup] at h
  | cons p ps ih =>
    rw [List.lookup] at h
    cases hpa : (a == p.1) with
    | true =>
      rw [hpa] at h
      have hb : p.2 = b := Option.some.inj h
      simp [← hb]
    | false =>
      rw [hpa] at h
      simp [ih h]

theorem pyLower_eq_self_or_mem (c : Char) :
    pyLower c = c ∨ pyLower c ∈ upperPairs.map Prod.snd := by
  unfold pyLower
  cases h : upperPairs.lookup c with
  | none => exact Or.inl rfl
  | some l => exact Or.inr (lookup_mem_values _ _ _ h)

theorem pyLower_eq_newline (c : Char) (h : pyLower c = '\n') : c = '\n' := by
  rcases pyLower_eq_self_or_mem c with h1 | h1
  · rw [← h1, h]
  · rw [h] at h1
    exact absurd h1 (by decide)

theorem matchEnds_cls_head (cs : List Char) (rest : List Tok) (prev : Option Char)
    (c : Char) (s' : List Char)
    (h : matchEnds (Tok.cls cs :: rest) prev (c :: s') ≠ []) :
    cs.contains (pyLower c) = true := by
  by_contra hc
  apply h
  simp only [matchEnds]
  rw [if_neg hc]

/-- All stop markers and section-end markers start with the literal `\n`. -/
theorem markers_head_newline :
    ∀ sm ∈ STOP_MARKERS ++ SECTION_END_MARKERS,
      sm.head? = some (Tok.cls ['\n']) := by
  decide

theorem marker_match_head_newline (sm : List Tok)
    (hhd : sm.head? = some (Tok.cls ['\n'])) (prev : Option Char)
    (c : Char) (s' : List Char) (h : matchEnds sm prev (c :: s') ≠ []) :
    c = '\n' := by
  cases sm with
  | nil => simp at hhd
  | cons t rest =>
    have ht : t = Tok.cls ['\n'] := by simpa using hhd
    subst ht
    have hcont := matchEnds_cls_head _ _ _ _ _ h
    have : pyLower c = '\n' := by simpa using hcont
    exact pyLower_eq_newline c this

theorem searchAux_none_of_no_newline (sm : List Tok)
    (hhd : sm.head? = some (Tok.cls ['\n'])) :
    ∀ (s : List Char) (prev : Option Char) (pos : Nat), '\n' ∉ s →
      reSearchStartAux sm prev s pos = none := by
  obtain ⟨rest, hrest⟩ : ∃ rest, sm = Tok.cls ['\n'] :: rest := by
    cases sm with
    | nil => simp at hhd
    | cons t rest =>
      refine ⟨rest, ?_⟩
      have ht : t = Tok.cls ['\n'] := by simpa using hhd
      rw [ht]
  subst hrest
  intro s
  induction s with
  | nil =>
    intro prev pos _
    simp [reSearchStartAux, matchEnds]
  | cons c s' ih =>
    intro prev pos hnl
    have hc : c ≠ '\n' := by
      intro hc
      exact hnl (by rw [← hc]; exact List.mem_cons_self _ _)
    have hcont : (['\n'] : List Char).contains (pyLower c) = false := by
      by_contra h
      have h' : (['\n'] : List Char).contains (pyLower c) = true := by
        cases hx : (['\n'] : List Char).contains (pyLower c)
        · exact absurd hx h
        · rfl
      have : pyLower c = '\n' := by simpa using h'
      exact hc (pyLower_eq_newline c this)
    have hme : matchEnds (Tok.cls ['\n'] :: rest) prev (c :: s') = [] := by
      simp only [matchEnds]
      rw [if_neg (fun hx => Bool.false_ne_true (hcont ▸ hx))]
    simp only [reSearchStartAux, hme]
    exact ih (some c) (pos + 1) (fun hmem => hnl (List.mem_cons_of_mem _ hmem))

theorem cutFold_all_none (s : List Char) (ms : List (List Tok)) :
    ∀ init, (∀ sm ∈ ms, reSearchStart sm s = none) → cutFold s ms init = init := by
  induction ms with
  | nil => intro init _; rfl
  | cons sm0 ms ih =>
    intro init h
    have hred : cutFold s (sm0 :: ms) init = cutFold s ms init := by
      show cutFold s ms (match reSearchStart sm0 s with
        | some p => if p < init then p else init
        | none => init) = cutFold s ms init
      rw [h sm0 (List.mem_cons_self _ _)]
    rw [hred]
    exact ih init (fun sm hmem => h sm (List.mem_cons_of_mem _ hmem))

/-- C10: every stop marker (inline) and section-end marker (tabular)
requires an immediately preceding newline: any match of any marker starts at
a `\n` character, and consequently on a window containing no newline at all
neither `stopCut` nor `sectionCut` truncates anything (both return the full
length). -/
theorem C10_markers_require_line_start :
    (∀ sm ∈ STOP_MARKERS ++ SECTION_END_MARKERS,
      ∀ (prev : Option Char) (c : Char) (s' : List Char),
        matchEnds sm prev (c :: s') ≠ [] → c = '\n') ∧
    (∀ s : List Char, '\n' ∉ s → stopCut s = s.length ∧ sectionCut s = s.length) := by
  constructor
  · intro sm hmem prev c s' h
    exact marker_match_head_newline sm (markers_head_newline sm hmem) prev c s' h
  · intro s hnl
    constructor
    · exact cutFold_all_none s STOP_MARKERS s.length (fun sm hmem =>
        searchAux_none_of_no_newline sm
          (markers_head_newline sm (List.mem_append_left _ hmem)) s none 0 hnl)
    · exact cutFold_all_none s SECTION_END_MARKERS s.length (fun sm hmem =>
        searchAux_none_of_no_newline sm
          (markers_head_newline sm (List.mem_append_right _ hmem)) s none 0 hnl)

/-- Closed instance of `C10_markers_require_line_start`: in the window
`"visit www.example.com Total 1"` the wordings `www.` and `Total` occur
mid-line (no newline anywhere), so neither the inline stop cut nor the
tabular section cut truncates (both equal the window length 29). -/
theorem C10_markers_require_line_start_witness :
    ('\n' ∉ (("visit www.example.com Total 1").data)) ∧
    stopCut (("visit www.example.com Total 1").data) = 29 ∧
    sectionCut (("visit www.example.com Total 1").data) = 29 :=
  ⟨by decide,
   ((C10_markers_require_line_start.2 (("visit www.example.com Total 1").data)
      (by decide)).1).trans (by decide),
   ((C10_markers_require_line_start.2 (("visit www.example.com Total 1").data)
      (by decide)).2).trans (by decide)⟩

end Script

namespace Script

/-! ### The label separator is mandatory (C8) -/

theorem pyLower_eq_colon (c : Char) (h : pyLower c = ':') : c = ':' := by
  rcases pyLower_eq_self_or_mem c with h1 | h1
  · rw [← h1, h]
  · rw [h] at h1
    exact absurd h1 (by decide)

theorem pyLower_eq_hyphen (c : Char) (h : pyLower c = '-') : c = '-' := by
  rcases pyLower_eq_self_or_mem c with h1 | h1
  · rw [← h1, h]
  · rw [h] at h1
    exact absurd h1 (by decide)

theorem contains_tail {t : Tok} {rest : List Tok}
    (h : (t :: rest).contains (Tok.cls [':', '-']) = true)
    (hne : t ≠ Tok.cls [':', '-']) :
    rest.contains (Tok.cls [':', '-']) = true := by
  rw [List.contains_cons] at h
  rcases Bool.or_eq_true_iff.1 h with h1 | h1
  · exact absurd (beq_iff_eq.1 h1).symm hne
  · exact h1

theorem repTails_remaining_mem (p : Char → Bool) :
    ∀ (s : List Char) (lo hi : Nat) (prev : Option Char)
      (t : Option Char × List Char × Nat),
      t ∈ repTails p lo hi prev s → ∀ c ∈ t.2.1, c ∈ s := by
  intro s
  induction s with
  | nil =>
    intro lo hi prev t ht c hc
    rw [repTails.eq_def] at ht
    rcases List.mem_append.1 ht with h | h
    · cases hi <;> simp at h
    · split at h
      · have : t = (prev, ([] : List Char), 0) := by simpa using h
        rw [this] at hc
        simp at hc
      · simp at h
  | cons a s' ih =>
    intro lo hi prev t ht c hc
    rw [repTails.eq_def] at ht
    rcases List.mem_append.1 ht with h | h
    · cases hi with
      | zero => simp at h
      | succ hi' =>
        have h' : t ∈ (if p a = true then
            (repTails p (lo - 1) hi' (some a) s').map (fun t => (t.1, t.2.1, t.2.2 + 1))
          else []) := h
        by_cases hpa : p a = true
        · rw [if_pos hpa] at h'
          obtain ⟨t', ht', htt⟩ := List.mem_map.1 h'
          rw [← htt] at hc
          exact List.mem_cons_of_mem _ (ih (lo - 1) hi' (some a) t' ht' c hc)
        · rw [if_neg hpa] at h'
          simp at h'
    · split at h
      · have : t = (prev, a :: s', 0) := by simpa using h
        rw [this] at hc
        exact hc
      · simp at h

theorem matchEnds_requires_sep :
    ∀ (toks : List Tok), toks.contains (Tok.cls [':', '-']) = true →
      ∀ (s : List Char) (prev : Option Char), (∀ c ∈ s, c ≠ ':' ∧ c ≠ '-') →
        matchEnds toks prev s = [] := by
  intro toks
  induction toks with
  | nil => intro h; exact absurd h (by decide)
  | cons t rest ih =>
    intro hsep s prev h
    cases t with
    | cls cs =>
      cases s with
      | nil => rfl
      | cons c s' =>
        by_cases hcs : cs = [':', '-']
        · subst hcs
          have hcont : ([':', '-'] : List Char).contains (pyLower c) = false := by
            cases hx : ([':', '-'] : List Char).contains (pyLower c)
            · rfl
            · exfalso
              have : pyLower c = ':' ∨ pyLower c = '-' := by simpa using hx
              rcases this with h1 | h1
              · exact (h c (List.mem_cons_self _ _)).1 (pyLower_eq_colon c h1)
              · exact (h c (List.mem_cons_self _ _)).2 (pyLower_eq_hyphen c h1)
          simp only [matchEnds]
          rw [if_neg (fun hx => Bool.false_ne_true (hcont ▸ hx))]
        · have hsep' := contains_tail hsep (fun he => hcs (by injection he))
          have h1 : matchEnds rest (some c) s' = [] :=
            ih hsep' s' (some c) (fun d hd => h d (List.mem_cons_of_mem _ hd))
          simp only [matchEnds]
          split
          · rw [h1]
            rfl
          · rfl
    | opt cs =>
      have hsep' := contains_tail hsep (by simp)
      have h2 : matchEnds rest prev s = [] := ih hsep' s prev h
      cases s with
      | nil =>
        simp only [matchEnds]
        rw [h2]
        rfl
      | cons c s' =>
        have h1 : matchEnds rest (some c) s' = [] :=
          ih hsep' s' (some c) (fun d hd => h d (List.mem_cons_of_mem _ hd))
        simp only [matchEnds]
        rw [h1, h2]
        split <;> simp
    | wb =>
      have hsep' := contains_tail hsep (by simp)
      simp only [matchEnds]
      split
      · exact ih hsep' s prev h
      · rfl
    | wsStar =>
      have hsep' := contains_tail hsep (by simp)
      simp only [matchEnds]
      rw [List.flatMap_eq_nil_iff]
      intro t ht
      rw [ih hsep' t.2.1 t.1
        (fun c hc => h c (repTails_remaining_mem isPySpace s 0 s.length prev t ht c hc))]
      rfl
    | wsPlus =>
      have hsep' := contains_tail hsep (by simp)
      simp only [matchEnds]
      rw [List.flatMap_eq_nil_iff]
      intro t ht
      rw [ih hsep' t.2.1 t.1
        (fun c hc => h c (repTails_remaining_mem isPySpace s 1 s.length prev t ht c hc))]
      rfl
    | digits lo hi =>
      have hsep' := contains_tail hsep (by simp)
      simp only [matchEnds]
      rw [List.flatMap_eq_nil_iff]
      intro t ht
      rw [ih hsep' t.2.1 t.1
        (fun c hc => h c (repTails_remaining_mem isPyDigit s lo hi prev t ht c hc))]
      rfl
    | digitPlus =>
      have hsep' := contains_tail hsep (by simp)
      simp only [matchEnds]
      rw [List.flatMap_eq_nil_iff]
      intro t ht
      rw [ih hsep' t.2.1 t.1
        (fun c hc => h c (repTails_remaining_mem isPyDigit s 1 s.length prev t ht c hc))]
      rfl

theorem reSearchGroupAux_none_of_no_sep (toks : List Tok)
    (hsep : toks.contains (Tok.cls [':', '-']) = true) :
    ∀ (s : List Char) (prev : Option Char), (∀ c ∈ s, c ≠ ':' ∧ c ≠ '-') →
      reSearchGroupAux toks prev s = none := by
  intro s
  induction s with
  | nil =>
    intro prev h
    simp only [reSearchGroupAux, matchEnds_requires_sep toks hsep [] prev h]
    rfl
  | cons c s' ih =>
    intro prev h
    simp only [reSearchGroupAux, matchEnds_requires_sep toks hsep (c :: s') prev h]
    exact ih (some c) (fun d hd => h d (List.mem_cons_of_mem _ hd))

/-- All four inline label patterns contain the mandatory `[:\-]` class. -/
theorem inline_patterns_have_sep :
    ∀ toks ∈ INLINE_PATTERNS, toks.contains (Tok.cls [':', '-']) = true := by
  decide

/-- C8 (amended): the colon/hyphen separator after an inline ingredient
label is mandatory, not optional: on any text containing no colon and no
hyphen at all, none of the label patterns can match and the inline extractor
returns absence. -/
theorem C8_separator_required (text : List Char)
    (h : ∀ c ∈ text, c ≠ ':' ∧ c ≠ '-') :
    extract_inline_ingredients text = none := by
  unfold extract_inline_ingredients
  split
  · rfl
  · rw [List.findSome?_eq_none_iff]
    intro toks hmem
    unfold tryInlinePattern
    rw [show reSearchGroup toks text = none from
      reSearchGroupAux_none_of_no_sep toks (inline_patterns_have_sep toks hmem) text none h]

/-- The claim as stated is false: `"Ingredients Aqua, Glycerin"` has a
word-boundary-anchored label occurrence followed directly by the ingredient
continuation with no colon or hyphen, yet the extractor returns `none`, not
the normalized continuation. -/
theorem C8_separator_optional_counterexample :
    extract_inline_ingredients (("Ingredients Aqua, Glycerin").data) = none ∧
    extract_inline_ingredients (("Ingredients Aqua, Glycerin").data)
      ≠ some (("Aqua, Glycerin").data) := by
  refine ⟨by decide, ?_⟩
  intro h
  exact absurd ((by decide : extract_inline_ingredients
    (("Ingredients Aqua, Glycerin").data) = none) ▸ h) (by simp)

/-- Closed instance of `C8_separator_required` at
`"Ingredients Aqua, Glycerin"`. -/
theorem C8_separator_required_witness :
    (∀ c ∈ (("Ingredients Aqua, Glycerin").data), c ≠ ':' ∧ c ≠ '-') ∧
    extract_inline_ingredients (("Ingredients Aqua, Glycerin").data) = none :=
  ⟨by decide, C8_separator_required (("Ingredients Aqua, Glycerin").data) (by decide)⟩

end Script

namespace Script

/-! ### Result invariants and orchestrator fallback (C5, C6, C7) -/

theorem intercalate_cons_append (sep x : List Char) (xs : List (List Char)) :
    ∃ t, List.intercalate sep (x :: xs) = x ++ t := by
  cases xs with
  | nil => exact ⟨[], by simp [List.intercalate]⟩
  | cons y ys =>
    exact ⟨sep ++ List.intercalate sep (y :: ys), by
      simp [List.intercalate, List.intersperse]⟩

theorem tableLineName_min_length (hToks : List Tok) (raw n : List Char)
    (h : tableLineName hToks raw = some n) : 3 ≤ n.length := by
  simp only [tableLineName] at h
  split at h
  · exact absurd h (by simp)
  · split at h
    · exact absurd h (by simp)
    · split at h
      · exact absurd h (by simp)
      · split at h
        · exact absurd h (by simp)
        · rename_i name hname
          split at h
          · exact absurd h (by simp)
          · rename_i hlen
            rw [← Option.some.inj h]
            omega

theorem allTableNames_min_length (text : List Char) :
    ∀ n ∈ allTableNames text, 3 ≤ n.length := by
  intro n hn
  unfold allTableNames at hn
  obtain ⟨hToks, _, hh⟩ := List.mem_flatMap.1 hn
  unfold headerNames at hh
  split at hh
  · simp at hh
  · unfold tableLineNames at hh
    obtain ⟨raw, _, hf⟩ := List.mem_filterMap.1 hh
    exact tableLineName_min_length hToks raw n hf

theorem table_ne_nil (text s : List Char)
    (h : extract_table_ingredients text = some s) : s ≠ [] := by
  unfold extract_table_ingredients at h
  split at h
  · exact absurd h (by simp)
  · have h2 : (if (allTableNames text).isEmpty = true then none
        else some (List.intercalate (", ".data) (dedupSeen [] (allTableNames text))))
        = some s := h
    by_cases hn : (allTableNames text).isEmpty = true
    · rw [if_pos hn] at h2
      exact absurd h2 (by simp)
    · rw [if_neg hn] at h2
      have hs := Option.some.inj h2
      cases hnames : allTableNames text with
      | nil =>
        rw [hnames] at hn
        exact absurd (rfl : ([] : List (List Char)).isEmpty = true) hn
      | cons m ns =>
        have hd : dedupSeen [] (m :: ns) = m :: dedupSeen [m] ns := by
          simp only [dedupSeen]
          rw [if_neg (by simp)]
        rw [hnames, hd] at hs
        obtain ⟨t, ht⟩ := intercalate_cons_append (", ".data) m (dedupSeen [m] ns)
        rw [ht] at hs
        have hmlen : 3 ≤ m.length := allTableNames_min_length text m
          (by rw [hnames]; exact List.mem_cons_self _ _)
        intro hempty
        rw [hempty] at hs
        have hlen := congrArg List.length hs
        simp only [List.length_append, List.length_nil] at hlen
        omega

theorem tryInlinePattern_some_spec (text : List Char) (toks : List Tok) (s : List Char)
    (h : tryInlinePattern text toks = some s) :
    s ≠ [] ∧ clean_ingredients_string s = s := by
  unfold tryInlinePattern at h
  split at h
  · exact absurd h (by simp)
  · rename_i after hafter
    have h2 : (if (clean_ingredients_string (List.take (stopCut after) after)).isEmpty = true
        then none
        else some (clean_ingredients_string (List.take (stopCut after) after)))
        = some s := h
    by_cases hing : (clean_ingredients_string (List.take (stopCut after) after)).isEmpty = true
    · rw [if_pos hing] at h2
      exact absurd h2 (by simp)
    · rw [if_neg hing] at h2
      have hs := Option.some.inj h2
      constructor
      · rw [← hs]
        intro hx
        rw [hx] at hing
        exact hing rfl
      · rw [← hs]
        exact clean_idem _

theorem inline_invariant (text s : List Char)
    (h : extract_inline_ingredients text = some s) :
    s ≠ [] ∧ clean_ingredients_string s = s := by
  unfold extract_inline_ingredients at h
  split at h
  · exact absurd h (by simp)
  · obtain ⟨toks, _, htoks⟩ := findSome?_mem _ _ _ h
    exact tryInlinePattern_some_spec text toks s htoks

theorem truthy_of_some_ne_nil (s : List Char) (h : s ≠ []) : truthy (some s) = true := by
  simp [truthy, h]

theorem runHeuristics_inline (text s : List Char)
    (h : extract_inline_ingredients text = some s) :
    runHeuristics text = some s := by
  have hne := (inline_invariant text s h).1
  simp only [runHeuristics, h]
  rw [if_pos (truthy_of_some_ne_nil s hne)]

theorem runHeuristics_table (text : List Char)
    (h : extract_inline_ingredients text = none) :
    runHeuristics text = extract_table_ingredients text := by
  simp only [runHeuristics, h]
  rw [if_neg (by simp [truthy])]
  cases ht : extract_table_ingredients text with
  | none => rw [if_neg (by simp [truthy])]
  | some t =>
    rw [if_pos (truthy_of_some_ne_nil t (table_ne_nil text t ht))]

/-- C5: the orchestrator's heuristic phase: if the inline extractor yields a
result it is returned unchanged and final; only if the inline extractor
signals absence is the tabular extractor's result used; if both signal
absence, the result is absence — the two results are never merged.  The
per-document orchestrator is exactly this phase applied to the recovered
text. -/
theorem C5_orchestrator_fallback :
    (∀ text s, extract_inline_ingredients text = some s → runHeuristics text = some s) ∧
    (∀ text, extract_inline_ingredients text = none →
      runHeuristics text = extract_table_ingredients text) ∧
    (∀ text, extract_inline_ingredients text = none →
      extract_table_ingredients text = none → runHeuristics text = none) ∧
    (∀ nativePages ocrPages, extract_ingredients_from_pdf nativePages ocrPages
      = runHeuristics (recoverText nativePages ocrPages)) :=
  ⟨runHeuristics_inline,
   runHeuristics_table,
   fun text h1 h2 => (runHeuristics_table text h1).trans h2,
   fun _ _ => rfl⟩

/-- Closed instance of `C5_orchestrator_fallback`: an inline hit is final;
a text where only the tabular heuristic fires falls through to it; the empty
text yields absence. -/
theorem C5_orchestrator_fallback_witness :
    runHeuristics (("Ingredients: Aqua").data) = some (("Aqua").data) ∧
    runHeuristics (("INGREDIENTE INCI\nAqua\nGlycerin").data)
      = extract_table_ingredients (("INGREDIENTE INCI\nAqua\nGlycerin").data) ∧
    runHeuristics ([] : List Char) = none :=
  ⟨C5_orchestrator_fallback.1 (("Ingredients: Aqua").data) (("Aqua").data) (by decide),
   C5_orchestrator_fallback.2.1 (("INGREDIENTE INCI\nAqua\nGlycerin").data) (by decide),
   C5_orchestrator_fallback.2.2.1 ([] : List Char) (by decide) (by decide)⟩

/-- C6: the 40-character threshold: when the native text (pages joined with
newlines, then stripped) has length at least 40 it is used and the OCR pages
are irrelevant (the result does not depend on them); when its length is
below 40 the orchestrator runs the heuristics on the OCR text instead. -/
theorem C6_native_text_threshold :
    (∀ nativePages ocr1 ocr2, 40 ≤ (extract_text_from_pdf nativePages).length →
      extract_ingredients_from_pdf nativePages ocr1
          = extract_ingredients_from_pdf nativePages ocr2 ∧
        extract_ingredients_from_pdf nativePages ocr1
          = runHeuristics (extract_text_from_pdf nativePages)) ∧
    (∀ nativePages ocrPages, (extract_text_from_pdf nativePages).length < 40 →
      extract_ingredients_from_pdf nativePages ocrPages
        = runHeuristics (extract_text_with_ocr ocrPages)) := by
  constructor
  · intro nativePages ocr1 ocr2 h
    have hcut : ∀ ocr : List (List Char),
        recoverText nativePages ocr = extract_text_from_pdf nativePages := by
      intro ocr
      unfold recoverText
      rw [if_neg (by omega)]
    constructor
    · show runHeuristics (recoverText nativePages ocr1)
          = runHeuristics (recoverText nativePages ocr2)
      rw [hcut ocr1, hcut ocr2]
    · show runHeuristics (recoverText nativePages ocr1) = _
      rw [hcut ocr1]
  · intro nativePages ocrPages h
    show runHeuristics (recoverText nativePages ocrPages) = _
    unfold recoverText
    rw [if_pos h]

/-- Closed instance of `C6_native_text_threshold`: a 10-character native
text triggers the OCR path (and the OCR text is then extracted from); a
44-character native text is used directly and changing the OCR pages does
not change the result. -/
theorem C6_native_text_threshold_witness :
    (extract_text_from_pdf [("1234567890").data]).length = 10 ∧
    extract_ingredients_from_pdf [("1234567890").data] [("Ingredients: Aqua").data]
      = runHeuristics (extract_text_with_ocr [("Ingredients: Aqua").data]) ∧
    extract_ingredients_from_pdf [("Ingredients: Aqua, Glycerin, Parfum, Limonene").data]
        [("OCR A").data]
      = extract_ingredients_from_pdf [("Ingredients: Aqua, Glycerin, Parfum, Limonene").data]
        [("OCR B").data] :=
  ⟨by decide,
   C6_native_text_threshold.2 [("1234567890").data] [("Ingredients: Aqua").data] (by decide),
   (C6_native_text_threshold.1 [("Ingredients: Aqua, Glycerin, Parfum, Limonene").data]
     [("OCR A").data] [("OCR B").data] (by decide)).1⟩

/-- The C7 claim as stated is false for the tabular extractor: on
`"ingrediente inci\naqua;"` it returns `"aqua;"`, which is not a fixpoint of
the normalizer (normalizing strips the trailing semicolon). -/
theorem C7_normalized_result_counterexample :
    extract_table_ingredients (("ingrediente inci\naqua;").data) = some (("aqua;").data) ∧
    clean_ingredients_string (("aqua;").data) ≠ ("aqua;").data :=
  ⟨by decide, by decide⟩

/-- C7 (amended): every extractor result and every orchestrator result is a
non-empty string (an extraction that normalizes to the empty string is
reported as absence, never as an empty string), and the inline extractor's
result is moreover a fixpoint of the normalizer; the tabular extractor's
result need not be normalized. -/
theorem C7_results_nonempty_inline_normalized :
    (∀ text s, extract_inline_ingredients text = some s →
      s ≠ [] ∧ clean_ingredients_string s = s) ∧
    (∀ text s, extract_table_ingredients text = some s → s ≠ []) ∧
    (∀ nativePages ocrPages s,
      extract_ingredients_from_pdf nativePages ocrPages = some s → s ≠ []) := by
  refine ⟨inline_invariant, table_ne_nil, ?_⟩
  intro nativePages ocrPages s h
  have h' : runHeuristics (recoverText nativePages ocrPages) = some s := h
  cases hi : extract_inline_ingredients (recoverText nativePages ocrPages) with
  | some i =>
    rw [runHeuristics_inline _ i hi] at h'
    rw [← Option.some.inj h']
    exact (inline_invariant _ i hi).1
  | none =>
    rw [runHeuristics_table _ hi] at h'
    exact table_ne_nil _ s h'

/-- Closed instance of `C7_results_nonempty_inline_normalized` at an inline
hit and a tabular hit. -/
theorem C7_results_nonempty_inline_normalized_witness :
    ((("Aqua").data ≠ []) ∧
      clean_ingredients_string (("Aqua").data) = ("Aqua").data) ∧
    (("aqua;").data ≠ []) :=
  ⟨C7_results_nonempty_inline_normalized.1 (("Ingredients: Aqua").data) (("Aqua").data)
    (by decide),
   C7_results_nonempty_inline_normalized.2.1 (("ingrediente inci\naqua;").data)
    (("aqua;").data) (by decide)⟩

end Script

namespace Script

/-! ### Inline extraction of `"Ingredients: " ++ X` (C2) -/

theorem matchEnds_cls_cons (cs : List Char) (rest : List Tok) (prev : Option Char)
    (c : Char) (s : List Char) (h : cs.contains (pyLower c) = true) :
    matchEnds (Tok.cls cs :: rest) prev (c :: s)
      = (matchEnds rest (some c) s).map (· + 1) := by
  simp only [matchEnds]
  rw [if_pos h]

theorem matchEnds_wb_pos (rest : List Tok) (prev : Option Char) (s : List Char)
    (h : atBoundary prev s = true) :
    matchEnds (Tok.wb :: rest) prev s = matchEnds rest prev s := by
  simp only [matchEnds]
  rw [if_pos h]

theorem matchEnds_wb_neg (rest : List Tok) (prev : Option Char) (s : List Char)
    (h : atBoundary prev s = false) :
    matchEnds (Tok.wb :: rest) prev s = [] := by
  simp only [matchEnds]
  rw [if_neg (by rw [h]; exact Bool.false_ne_true)]

theorem matchEnds_wb_cons_pos (rest : List Tok) (prev : Option Char) (c : Char)
    (s : List Char) (h : (isWordO prev != isPyWord c) = true) :
    matchEnds (Tok.wb :: rest) prev (c :: s) = matchEnds rest prev (c :: s) :=
  matchEnds_wb_pos rest prev (c :: s) h

theorem matchEnds_opt_cons (cs : List Char) (rest : List Tok) (prev : Option Char)
    (c : Char) (s : List Char) (h : cs.contains (pyLower c) = true) :
    matchEnds (Tok.opt cs :: rest) prev (c :: s)
      = (matchEnds rest (some c) s).map (· + 1) ++ matchEnds rest prev (c :: s) := by
  simp only [matchEnds]
  rw [if_pos h]

theorem repTails_single (p : Char → Bool) (hi : Nat) (prev : Option Char) (X : List Char)
    (hhead : ∀ c, X.head? = some c → p c = false) :
    repTails p 0 hi prev X = [(prev, X, 0)] := by
  cases X with
  | nil =>
    rw [repTails.eq_def]
    cases hi <;> rfl
  | cons c X' =>
    have hc : p c = false := hhead c rfl
    rw [repTails.eq_def]
    cases hi with
    | zero => rfl
    | succ hi' => simp [hc]

theorem repTails_cons_sat (p : Char → Bool) (hi : Nat) (prev : Option Char)
    (c : Char) (X : List Char) (hc : p c = true) :
    repTails p 0 (hi + 1) prev (c :: X)
      = (repTails p 0 hi (some c) X).map (fun t => (t.1, t.2.1, t.2.2 + 1))
        ++ [(prev, c :: X, 0)] := by
  rw [repTails.eq_def]
  simp [hc]

theorem flatMap_matchEnds_nil (l : List (Option Char × List Char × Nat)) :
    l.flatMap (fun t => (matchEnds [] t.1 t.2.1).map (· + t.2.2))
      = l.map (fun t => t.2.2) := by
  induction l with
  | nil => rfl
  | cons t l ih =>
    simp only [List.flatMap_cons, ih]
    show ([0].map (· + t.2.2)) ++ l.map (fun t => t.2.2) = t.2.2 :: l.map (fun t => t.2.2)
    simp

theorem range_reverse_succ_map (n : Nat) :
    (List.range (n + 1)).reverse = ((List.range n).reverse).map (fun k => k + 1) ++ [0] := by
  rw [List.range_succ_eq_map, List.reverse_cons, ← List.map_reverse]

theorem range_reverse_cons (n : Nat) :
    (List.range (n + 1)).reverse = n :: (List.range n).reverse := by
  rw [List.range_succ, List.reverse_append]
  rfl

theorem repTails_ends (p : Char → Bool) :
    ∀ (s : List Char) (hi : Nat) (prev : Option Char),
      (s.takeWhile p).length ≤ hi →
      (repTails p 0 hi prev s).map (fun t => t.2.2)
        = (List.range ((s.takeWhile p).length + 1)).reverse := by
  intro s
  induction s with
  | nil =>
    intro hi prev _
    rw [repTails.eq_def]
    cases hi <;> rfl
  | cons c s' ih =>
    intro hi prev hbound
    by_cases hc : p c = true
    · have htw : (c :: s').takeWhile p = c :: s'.takeWhile p := by
        simp [List.takeWhile_cons, hc]
      rw [htw] at hbound ⊢
      simp only [List.length_cons] at hbound ⊢
      cases hi with
      | zero => omega
      | succ h =>
        have hb' : (s'.takeWhile p).length ≤ h := by omega
        rw [repTails_cons_sat p h prev c s' hc, List.map_append, List.map_map]
        have hone : ([(prev, c :: s', 0)].map
            (fun t : Option Char × List Char × Nat => t.2.2)) = [0] := rfl
        rw [hone]
        have hcomp : (repTails p 0 h (some c) s').map
            ((fun t : Option Char × List Char × Nat => t.2.2) ∘
              (fun t : Option Char × List Char × Nat => (t.1, t.2.1, t.2.2 + 1)))
            = ((repTails p 0 h (some c) s').map
                (fun t : Option Char × List Char × Nat => t.2.2)).map (fun k => k + 1) := by
          rw [List.map_map]
          rfl
        rw [hcomp, ih h (some c) hb']
        rw [range_reverse_succ_map ((s'.takeWhile p).length + 1)]
    · have hcf : p c = false := eq_false_of_ne_true hc
      have htw : (c :: s').takeWhile p = [] := by
        simp [List.takeWhile_cons, hcf]
      rw [htw]
      rw [repTails.eq_def]
      cases hi with
      | zero => rfl
      | succ h =>
        simp [hcf]
        rfl

theorem matchEnds_wsStar_ends (prev : Option Char) (s : List Char) :
    matchEnds [Tok.wsStar] prev s
      = (List.range ((s.takeWhile isPySpace).length + 1)).reverse := by
  show (repTails isPySpace 0 s.length prev s).flatMap
      (fun t => (matchEnds [] t.1 t.2.1).map (· + t.2.2)) = _
  rw [flatMap_matchEnds_nil,
    repTails_ends isPySpace s s.length prev (List.takeWhile_sublist _).length_le]

theorem matchEnds_sep_tail (X : List Char) (prev : Option Char) :
    matchEnds sepToks prev (':' :: ' ' :: X)
      = ((List.range ((X.takeWhile isPySpace).length + 2)).reverse).map (· + 1) := by
  have h3 : matchEnds [Tok.cls [':', '-'], Tok.wsStar] prev (':' :: ' ' :: X)
      = ((List.range ((X.takeWhile isPySpace).length + 2)).reverse).map (· + 1) := by
    rw [matchEnds_cls_cons [':', '-'] [Tok.wsStar] prev ':' (' ' :: X) (by decide)]
    rw [matchEnds_wsStar_ends (some ':') (' ' :: X)]
    have hl : ((' ' :: X).takeWhile isPySpace).length
        = (X.takeWhile isPySpace).length + 1 := by
      simp [List.takeWhile_cons, show isPySpace ' ' = true from by decide]
    rw [hl]
  have hrep : repTails isPySpace 0 (':' :: ' ' :: X).length prev (':' :: ' ' :: X)
      = [(prev, ':' :: ' ' :: X, 0)] :=
    repTails_single isPySpace _ prev _ (fun c hc => by
      have h2 : ':' = c := by simpa using hc
      rw [← h2]; rfl)
  show (repTails isPySpace 0 (':' :: ' ' :: X).length prev (':' :: ' ' :: X)).flatMap
      (fun t => (matchEnds [Tok.cls [':', '-'], Tok.wsStar] t.1 t.2.1).map (· + t.2.2))
      = _
  rw [hrep]
  simp only [List.flatMap_cons, List.flatMap_nil, List.append_nil]
  rw [h3]
  rw [List.map_map]
  rfl

theorem matchEnds_inlinePat1_eval (X : List Char) (prev : Option Char)
    (hprev : isWordO prev = false) :
    matchEnds inlinePat1 prev (("Ingredients: ").data ++ X)
      = ((List.range ((X.takeWhile isPySpace).length + 2)).reverse).map (· + 12) := by
  have hopt : matchEnds (Tok.opt ['s'] :: Tok.wb :: sepToks) (some 't')
      ('s' :: ':' :: ' ' :: X)
      = ((List.range ((X.takeWhile isPySpace).length + 2)).reverse).map (· + 2) := by
    rw [matchEnds_opt_cons ['s'] (Tok.wb :: sepToks) (some 't') 's' (':' :: ' ' :: X)
      (by decide)]
    rw [matchEnds_wb_pos sepToks (some 's') (':' :: ' ' :: X) rfl]
    rw [matchEnds_wb_neg sepToks (some 't') ('s' :: ':' :: ' ' :: X) rfl]
    rw [matchEnds_sep_tail X (some 's')]
    rw [List.append_nil, List.map_map]
    rfl
  show matchEnds (Tok.wb :: Tok.cls ['i'] :: Tok.cls ['n'] :: Tok.cls ['g'] ::
      Tok.cls ['r'] :: Tok.cls ['e'] :: Tok.cls ['d'] :: Tok.cls ['i'] :: Tok.cls ['e'] ::
      Tok.cls ['n'] :: Tok.cls ['t'] :: Tok.opt ['s'] :: Tok.wb :: sepToks) prev
      ('I' :: 'n' :: 'g' :: 'r' :: 'e' :: 'd' :: 'i' :: 'e' :: 'n' :: 't' :: 's' :: ':' ::
        ' ' :: X) = _
  rw [matchEnds_wb_cons_pos _ prev _ _ (by rw [hprev]; rfl)]
  rw [matchEnds_cls_cons _ _ _ _ _ (by decide)]
  rw [matchEnds_cls_cons _ _ _ _ _ (by decide)]
  rw [matchEnds_cls_cons _ _ _ _ _ (by decide)]
  rw [matchEnds_cls_cons _ _ _ _ _ (by decide)]
  rw [matchEnds_cls_cons _ _ _ _ _ (by decide)]
  rw [matchEnds_cls_cons _ _ _ _ _ (by decide)]
  rw [matchEnds_cls_cons _ _ _ _ _ (by decide)]
  rw [matchEnds_cls_cons _ _ _ _ _ (by decide)]
  rw [matchEnds_cls_cons _ _ _ _ _ (by decide)]
  rw [matchEnds_cls_cons _ _ _ _ _ (by decide)]
  rw [hopt]
  simp only [List.map_map]
  rfl

end Script

namespace Script

theorem reSearchGroupAux_eq (toks : List Tok) (prev : Option Char) (s : List Char) :
    reSearchGroupAux toks prev s
      = match (matchEnds toks prev s).find? (fun k => decide (k < s.length)) with
        | some k => some (s.drop k)
        | none =>
          match s with
          | [] => none
          | c :: s' => reSearchGroupAux toks (some c) s' := by
  cases s with
  | nil => rfl
  | cons c s' => rfl

/-- The character just before position `i` of `s` (`none` at the string
start), as seen by the search loop. -/
def prevAt (s : List Char) (i : Nat) : Option Char :=
  if i = 0 then none else s.get? (i - 1)

/-- Position `i` of `s` admits no viable match of the label pattern followed
by `(.+)` (the group search rejects the position and moves right). -/
abbrev groupFailsAt (toks : List Tok) (s : List Char) (i : Nat) : Prop :=
  ((matchEnds toks (prevAt s i) (s.drop i)).find?
    (fun k => decide (k < (s.drop i).length))) = none

theorem reSearchGroupAux_skip (toks : List Tok) :
    ∀ (n : Nat) (s : List Char), n ≤ s.length →
      (∀ i, i < n → groupFailsAt toks s i) →
      reSearchGroupAux toks none s = reSearchGroupAux toks (prevAt s n) (s.drop n) := by
  intro n
  induction n with
  | zero => intro s _ _; rfl
  | succ n ih =>
    intro s hlen hfail
    rw [ih s (Nat.le_of_succ_le hlen) (fun i hi => hfail i (Nat.lt_succ_of_lt hi))]
    have hn : n < s.length := hlen
    obtain ⟨c, rest, hcr⟩ : ∃ c rest, s.drop n = c :: rest := by
      cases hd : s.drop n with
      | nil =>
        exfalso
        have hlend := congrArg List.length hd
        rw [List.length_drop] at hlend
        simp at hlend
        omega
      | cons c rest => exact ⟨c, rest, rfl⟩
    have hfind : (matchEnds toks (prevAt s n) (s.drop n)).find?
        (fun k => decide (k < (s.drop n).length)) = none := hfail n (Nat.lt_succ_self n)
    rw [hcr] at hfind
    rw [hcr, reSearchGroupAux_eq toks (prevAt s n) (c :: rest), hfind]
    show reSearchGroupAux toks (some c) rest
        = reSearchGroupAux toks (prevAt s (n + 1)) (s.drop (n + 1))
    have hget : s.get? n = some c := by
      have h2 : (s.drop n).get? 0 = s.get? (n + 0) := List.get?_drop s n 0
      rw [hcr] at h2
      simpa using h2.symm
    have hprev : prevAt s (n + 1) = some c := by
      unfold prevAt
      rw [if_neg (Nat.succ_ne_zero n), Nat.add_sub_cancel]
      exact hget
    have hdrop : s.drop (n + 1) = rest := by
      have h3 : (s.drop n).drop 1 = s.drop (n + 1) := List.drop_drop 1 n s
      rw [hcr] at h3
      exact h3.symm
    rw [hprev, hdrop]

theorem drop_takeWhile_length (X : List Char) (p : Char → Bool) :
    X.drop ((X.takeWhile p).length) = X.dropWhile p := by
  have h2 := List.drop_left (X.takeWhile p) (X.dropWhile p)
  rw [List.takeWhile_append_dropWhile] at h2
  exact h2

theorem reSearchGroup_at_label (P X : List Char)
    (hP : ∀ i, i < P.length →
      groupFailsAt inlinePat1 (P ++ (("Ingredients: ").data ++ X)) i)
    (hwb : isWordO (prevAt (P ++ (("Ingredients: ").data ++ X)) P.length) = false)
    (hrun : (X.takeWhile isPySpace).length < X.length) :
    reSearchGroup inlinePat1 (P ++ (("Ingredients: ").data ++ X))
      = some (X.dropWhile isPySpace) := by
  show reSearchGroupAux inlinePat1 none (P ++ (("Ingredients: ").data ++ X)) = _
  rw [reSearchGroupAux_skip inlinePat1 P.length (P ++ (("Ingredients: ").data ++ X))
    (by rw [List.length_append]; omega) hP]
  rw [List.drop_left P (("Ingredients: ").data ++ X)]
  rw [reSearchGroupAux_eq]
  rw [matchEnds_inlinePat1_eval X _ hwb]
  rw [range_reverse_cons ((X.takeWhile isPySpace).length + 1), List.map_cons]
  have hcond : decide ((X.takeWhile isPySpace).length + 1 + 12
      < (("Ingredients: ").data ++ X).length) = true := by
    rw [List.length_append]
    have h13 : (("Ingredients: ").data).length = 13 := rfl
    rw [h13]
    simp
    omega
  have hfind : ((((X.takeWhile isPySpace).length + 1) + 12) ::
      (((List.range ((X.takeWhile isPySpace).length + 1)).reverse).map (· + 12))).find?
        (fun k => decide (k < (("Ingredients: ").data ++ X).length))
      = some (((X.takeWhile isPySpace).length + 1) + 12) := by
    simp only [List.find?, hcond]
  rw [hfind]
  show some ((("Ingredients: ").data ++ X).drop
      (((X.takeWhile isPySpace).length + 1) + 12)) = _
  have harith : ((X.takeWhile isPySpace).length + 1) + 12
      = (("Ingredients: ").data).length + (X.takeWhile isPySpace).length := by
    have h13 : (("Ingredients: ").data).length = 13 := rfl
    omega
  rw [harith, ← List.drop_drop, List.drop_left, drop_takeWhile_length]

end Script

namespace Script

theorem stop_none_dropWhile (sm : List Tok) (hmem : sm ∈ STOP_MARKERS) (X : List Char)
    (h : reSearchStart sm X = none) :
    reSearchStart sm (X.dropWhile isPySpace) = none := by
  have hpi := matchEnds_prev_indep sm (stop_markers_clsOnly sm hmem)
  cases hs : reSearchStart sm (X.dropWhile isPySpace) with
  | none => rfl
  | some p =>
    exfalso
    have hm := (reSearchStart_some_spec sm hpi _ p hs).1
    unfold stopMatchAt at hm
    rw [← drop_takeWhile_length X isPySpace, List.drop_drop] at hm
    exact (reSearchStart_none_spec sm hpi X h ((X.takeWhile isPySpace).length + p)) hm

theorem lstrip_collapse_flag (s : List Char) :
    lstrip stripSet (collapseAux true s) = lstrip stripSet (collapseAux false s) := by
  induction s with
  | nil => rfl
  | cons c s' ih =>
    by_cases hc : isPySpace c = true
    · have h1 : collapseAux true (c :: s') = collapseAux true s' := by
        simp [collapseAux, hc]
      have h2 : collapseAux false (c :: s') = ' ' :: collapseAux true s' := by
        simp [collapseAux, hc]
      rw [h1, h2]
      show lstrip stripSet (collapseAux true s')
          = List.dropWhile (fun x => stripSet.contains x) (' ' :: collapseAux true s')
      rw [List.dropWhile_cons_of_pos (by decide)]
      rfl
    · have hcf : isPySpace c = false := eq_false_of_ne_true hc
      have h1 : collapseAux true (c :: s') = c :: collapseAux false s' := by
        simp [collapseAux, hcf]
      have h2 : collapseAux false (c :: s') = c :: collapseAux false s' := by
        simp [collapseAux, hcf]
      rw [h1, h2]

theorem clean_dropWhile_ws (X : List Char) :
    clean_ingredients_string (X.dropWhile isPySpace) = clean_ingredients_string X := by
  induction X with
  | nil => rfl
  | cons c X' ih =>
    by_cases hc : isPySpace c = true
    · have hd : (c :: X').dropWhile isPySpace = X'.dropWhile isPySpace :=
        List.dropWhile_cons_of_pos hc
      rw [hd, ih]
      show pyStrip stripSet (collapseWs X') = pyStrip stripSet (collapseWs (c :: X'))
      have h2 : collapseWs (c :: X') = ' ' :: collapseAux true X' := by
        simp [collapseWs, collapseAux, hc]
      rw [h2]
      unfold pyStrip
      have h3 : lstrip stripSet (' ' :: collapseAux true X')
          = lstrip stripSet (collapseAux true X') := by
        show List.dropWhile (fun x => stripSet.contains x) (' ' :: collapseAux true X') = _
        rw [List.dropWhile_cons_of_pos (by decide)]
        rfl
      rw [h3, lstrip_collapse_flag]
      rfl
    · have hcf : isPySpace c = false := eq_false_of_ne_true hc
      have hd : (c :: X').dropWhile isPySpace = c :: X' :=
        List.dropWhile_cons_of_neg (by rw [hcf]; exact Bool.false_ne_true)
      rw [hd]

theorem clean_nil_of_all_ws (X : List Char) (h : ∀ c ∈ X, isPySpace c = true) :
    clean_ingredients_string X = [] := by
  rw [← clean_dropWhile_ws]
  rw [List.dropWhile_eq_nil_iff.2 h]
  rfl

theorem takeWhile_lt_of_clean_ne (X : List Char)
    (hne : clean_ingredients_string X ≠ []) :
    (X.takeWhile isPySpace).length < X.length := by
  rcases Nat.lt_or_ge ((X.takeWhile isPySpace).length) X.length with h | h
  · exact h
  · exfalso
    have hle : (X.takeWhile isPySpace).length ≤ X.length :=
      (List.takeWhile_sublist _).length_le
    have heq : (X.takeWhile isPySpace).length = X.length := le_antisymm hle h
    have hXeq : X.takeWhile isPySpace = X :=
      (List.takeWhile_sublist _).eq_of_length heq
    have hall : ∀ c ∈ X, isPySpace c = true := by
      intro c hc
      rw [← hXeq] at hc
      exact List.mem_takeWhile_imp hc
    exact hne (clean_nil_of_all_ws X hall)

/-- C2 (amended): for a text of the form `prefix ++ "Ingredients: " ++ X`
where no viable match of the first label pattern starts strictly inside the
prefix (the displayed label is the leftmost match), the character before the
label is not a word character (so the label's `\b` holds; in particular any
empty prefix or prefix ending in space/punctuation qualifies), no stop
marker matches in `X`, and `X` does not normalize to the empty string, the
inline extractor returns `clean_ingredients_string X`.  `X` itself is
arbitrary: its leading whitespace is absorbed by the label pattern's
trailing `\s*` exactly as the normalizer would absorb it. -/
theorem C2_inline_returns_normalized (P X : List Char)
    (hP : ∀ i, i < P.length →
      groupFailsAt inlinePat1 (P ++ (("Ingredients: ").data ++ X)) i)
    (hwb : isWordO (prevAt (P ++ (("Ingredients: ").data ++ X)) P.length) = false)
    (hstop : ∀ sm ∈ STOP_MARKERS, reSearchStart sm X = none)
    (hne : clean_ingredients_string X ≠ []) :
    extract_inline_ingredients (P ++ (("Ingredients: ").data ++ X))
      = some (clean_ingredients_string X) := by
  have hrun := takeWhile_lt_of_clean_ne X hne
  have hgroup := reSearchGroup_at_label P X hP hwb hrun
  have hstopD : ∀ sm ∈ STOP_MARKERS, reSearchStart sm (X.dropWhile isPySpace) = none :=
    fun sm hmem => stop_none_dropWhile sm hmem X (hstop sm hmem)
  have htry : tryInlinePattern (P ++ (("Ingredients: ").data ++ X)) inlinePat1
      = some (clean_ingredients_string X) := by
    unfold tryInlinePattern
    rw [hgroup]
    have hcut : stopCut (X.dropWhile isPySpace) = (X.dropWhile isPySpace).length :=
      cutFold_all_none _ STOP_MARKERS _ hstopD
    show (if (clean_ingredients_string
          (List.take (stopCut (X.dropWhile isPySpace)) (X.dropWhile isPySpace))).isEmpty
            = true
        then none
        else some (clean_ingredients_string
          (List.take (stopCut (X.dropWhile isPySpace)) (X.dropWhile isPySpace))))
      = some (clean_ingredients_string X)
    rw [hcut, List.take_length, clean_dropWhile_ws]
    rw [if_neg (fun hx => hne (List.isEmpty_iff.1 hx))]
  have hempty : (P ++ (("Ingredients: ").data ++ X)).isEmpty = false := by
    cases P with
    | nil => rfl
    | cons c P' => rfl
  unfold extract_inline_ingredients
  rw [if_neg (fun hx => Bool.false_ne_true (hempty ▸ hx))]
  show List.findSome? (tryInlinePattern (P ++ (("Ingredients: ").data ++ X)))
      (inlinePat1 :: [inlinePat2, inlinePat3, inlinePat4]) = _
  rw [List.findSome?_cons, htry]

/-- The C2 claim as stated (with an arbitrary prefix before the label) is
false: take prefix `"Ingredients: B "` and `X = "Aqua"` (which contains no
stop marker); the extractor matches the leftmost label, so it returns
`"B Ingredients: Aqua"`, not `normalize X = "Aqua"`. -/
theorem C2_inline_normalize_counterexample :
    (("Ingredients: B Ingredients: Aqua").data
      = ("Ingredients: B ").data ++ ("Ingredients: ").data ++ ("Aqua").data) ∧
    (∀ sm ∈ STOP_MARKERS, reSearchStart sm (("Aqua").data) = none) ∧
    clean_ingredients_string (("Aqua").data) = ("Aqua").data ∧
    extract_inline_ingredients (("Ingredients: B Ingredients: Aqua").data)
      = some (("B Ingredients: Aqua").data) ∧
    ("B Ingredients: Aqua").data ≠ ("Aqua").data := by
  refine ⟨by decide, by decide, by decide, by decide, by decide⟩

/-- Closed instance of `C2_inline_returns_normalized` with the non-empty
prefix `"Foo. "` and the whitespace-leading `X = " Aqua"`:
`"Foo. Ingredients:  Aqua"` yields `"Aqua"`. -/
theorem C2_inline_returns_normalized_witness :
    (∀ i, i < (("Foo. ").data).length →
      groupFailsAt inlinePat1
        (("Foo. ").data ++ (("Ingredients: ").data ++ (" Aqua").data)) i) ∧
    isWordO (prevAt (("Foo. ").data ++ (("Ingredients: ").data ++ (" Aqua").data))
      (("Foo. ").data).length) = false ∧
    clean_ingredients_string ((" Aqua").data) = ("Aqua").data ∧
    extract_inline_ingredients
        (("Foo. ").data ++ (("Ingredients: ").data ++ (" Aqua").data))
      = some (clean_ingredients_string ((" Aqua").data)) :=
  ⟨by decide, by decide, by decide,
   C2_inline_returns_normalized (("Foo. ").data) ((" Aqua").data)
     (by decide) (by decide) (by decide) (by decide)⟩

end Script
